import Mathlib

/-!
Verification development for the policy-radar backend core: the tool-calling
orchestration engine (provider adapters, tool executor, cancellation registry,
source router) and the retrieval-memory subsystem (`pdf_memory`).

Python values flowing through tool results are modelled by `JVal` (a JSON-like
value) and Python dicts by `Dict`, an insertion-ordered association list with
Python dict semantics for get / set / update.
-/

namespace PolicyRadar

/-- JSON-like value: the shape of data held in the Python dicts that tool
results, previews and metadata are made of.  Numbers are modelled as `Int`
(the byte sizes and lengths involved are integers in the source). -/
inductive JVal where
  | jnull : JVal
  | jbool : Bool → JVal
  | jnum : Int → JVal
  | jstr : String → JVal
  | jarr : List JVal → JVal
  | jobj : List (String × JVal) → JVal
deriving Repr

mutual

/-- Decidable equality for `JVal` (manual, because of the nested lists). -/
def JVal.beq : JVal → JVal → Bool
  | .jnull, .jnull => true
  | .jbool a, .jbool b => a == b
  | .jnum a, .jnum b => a == b
  | .jstr a, .jstr b => a == b
  | .jarr a, .jarr b => JVal.beqList a b
  | .jobj a, .jobj b => JVal.beqFields a b
  | _, _ => false

def JVal.beqList : List JVal → List JVal → Bool
  | [], [] => true
  | a :: as, b :: bs => JVal.beq a b && JVal.beqList as bs
  | _, _ => false

def JVal.beqFields : List (String × JVal) → List (String × JVal) → Bool
  | [], [] => true
  | (ka, va) :: as, (kb, vb) :: bs => ka == kb && JVal.beq va vb && JVal.beqFields as bs
  | _, _ => false

end

mutual

theorem JVal.beq_iff : ∀ a b : JVal, JVal.beq a b = true ↔ a = b
  | .jnull, .jnull => by simp [JVal.beq]
  | .jnull, .jbool _ => by simp [JVal.beq]
  | .jnull, .jnum _ => by simp [JVal.beq]
  | .jnull, .jstr _ => by simp [JVal.beq]
  | .jnull, .jarr _ => by simp [JVal.beq]
  | .jnull, .jobj _ => by simp [JVal.beq]
  | .jbool _, .jnull => by simp [JVal.beq]
  | .jbool a, .jbool b => by simp [JVal.beq]
  | .jbool _, .jnum _ => by simp [JVal.beq]
  | .jbool _, .jstr _ => by simp [JVal.beq]
  | .jbool _, .jarr _ => by simp [JVal.beq]
  | .jbool _, .jobj _ => by simp [JVal.beq]
  | .jnum _, .jnull => by simp [JVal.beq]
  | .jnum _, .jbool _ => by simp [JVal.beq]
  | .jnum a, .jnum b => by simp [JVal.beq]
  | .jnum _, .jstr _ => by simp [JVal.beq]
  | .jnum _, .jarr _ => by simp [JVal.beq]
  | .jnum _, .jobj _ => by simp [JVal.beq]
  | .jstr _, .jnull => by simp [JVal.beq]
  | .jstr _, .jbool _ => by simp [JVal.beq]
  | .jstr _, .jnum _ => by simp [JVal.beq]
  | .jstr a, .jstr b => by simp [JVal.beq]
  | .jstr _, .jarr _ => by simp [JVal.beq]
  | .jstr _, .jobj _ => by simp [JVal.beq]
  | .jarr _, .jnull => by simp [JVal.beq]
  | .jarr _, .jbool _ => by simp [JVal.beq]
  | .jarr _, .jnum _ => by simp [JVal.beq]
  | .jarr _, .jstr _ => by simp [JVal.beq]
  | .jarr a, .jarr b => by
      simp only [JVal.beq, JVal.jarr.injEq]
      exact JVal.beqList_iff a b
  | .jarr _, .jobj _ => by simp [JVal.beq]
  | .jobj _, .jnull => by simp [JVal.beq]
  | .jobj _, .jbool _ => by simp [JVal.beq]
  | .jobj _, .jnum _ => by simp [JVal.beq]
  | .jobj _, .jstr _ => by simp [JVal.beq]
  | .jobj _, .jarr _ => by simp [JVal.beq]
  | .jobj a, .jobj b => by
      simp only [JVal.beq, JVal.jobj.injEq]
      exact JVal.beqFields_iff a b

theorem JVal.beqList_iff : ∀ a b : List JVal, JVal.beqList a b = true ↔ a = b
  | [], [] => by simp [JVal.beqList]
  | [], _ :: _ => by simp [JVal.beqList]
  | _ :: _, [] => by simp [JVal.beqList]
  | a :: as, b :: bs => by
      simp only [JVal.beqList, Bool.and_eq_true, List.cons.injEq]
      exact and_congr (JVal.beq_iff a b) (JVal.beqList_iff as bs)

theorem JVal.beqFields_iff :
    ∀ a b : List (String × JVal), JVal.beqFields a b = true ↔ a = b
  | [], [] => by simp [JVal.beqFields]
  | [], _ :: _ => by simp [JVal.beqFields]
  | _ :: _, [] => by simp [JVal.beqFields]
  | (ka, va) :: as, (kb, vb) :: bs => by
      simp only [JVal.beqFields, Bool.and_eq_true, List.cons.injEq, Prod.mk.injEq,
        beq_iff_eq]
      rw [JVal.beq_iff va vb, JVal.beqFields_iff as bs, and_assoc]

end

instance : DecidableEq JVal := fun a b =>
  decidable_of_iff (JVal.beq a b = true) (JVal.beq_iff a b)

/-- A Python dict as it is used throughout the services: an insertion-ordered
list of key/value pairs with string keys and at most one binding per key. -/
abbrev Dict := List (String × JVal)

/-- `d.get(k)`: the value bound to `k`, if any. -/
def dget : Dict → String → Option JVal
  | [], _ => none
  | p :: d, k => if p.1 = k then some p.2 else dget d k

/-- `k in d`. -/
def dhasKey : Dict → String → Bool
  | [], _ => false
  | p :: d, k => p.1 = k || dhasKey d k

/-- `d[k] = v`: replace the binding in place when the key exists (Python keeps
the original position), otherwise append it. -/
def dset : Dict → String → JVal → Dict
  | [], k, v => [(k, v)]
  | p :: d, k, v => if p.1 = k then (k, v) :: d else p :: dset d k v

/-- `{x: y for x, y in d.items() if x != k}`: drop one key. -/
def dremove (d : Dict) (k : String) : Dict :=
  d.filter (fun p => p.1 ≠ k)

/-- `d.update(e)`: set every binding of `e` in `d`, in order. -/
def dictUpdate (d e : Dict) : Dict :=
  e.foldl (fun acc p => dset acc p.1 p.2) d

/-! ## Truncation of tool output text (`openai_service.py` top constants,
`_truncate_for_model`, `_prepare_tool_output`; `gemini_service.py` has a
character-identical `_truncate_for_model` and an images-free
`_prepare_tool_output`). -/

/-- `MAX_TOOL_TEXT_CHARS = 20000` (openai_service.py line 14). -/
def MAX_TOOL_TEXT_CHARS : Nat := 20000

/-- `MAX_TOOL_IMAGES = 2` (openai_service.py line 15). -/
def MAX_TOOL_IMAGES : Nat := 2

/-- `MAX_IMAGE_BYTES = 200_000` (openai_service.py line 16). -/
def MAX_IMAGE_BYTES : Int := 200000

/-- `MAX_IMAGE_TOTAL_BYTES = 250_000` (openai_service.py line 17). -/
def MAX_IMAGE_TOTAL_BYTES : Int := 250000

/-- Python truthiness of an optional value fetched by `dict.get`. -/
def truthy : Option JVal → Bool
  | none => false
  | some .jnull => false
  | some (.jbool b) => b
  | some (.jnum n) => n ≠ 0
  | some (.jstr s) => s ≠ ""
  | some (.jarr l) => l ≠ []
  | some (.jobj l) => l ≠ []

/-- Rendering of a value inside a Python f-string. -/
def jvalStr : JVal → String
  | .jnull => "None"
  | .jbool b => if b then "True" else "False"
  | .jnum n => toString n
  | .jstr s => s
  | .jarr _ => "[...]"
  | .jobj _ => "{...}"

/-- Index of the last occurrence of `c` in `s`: the model of `s.rfind(c)`
(`none` when Python returns `-1`). -/
def rlastIdxAux (c : Char) : List Char → Nat → Option Nat
  | [], _ => none
  | x :: xs, i =>
    match rlastIdxAux c xs (i + 1) with
    | some j => some j
    | none => if x = c then some i else none

def rfindIdx (s : String) (c : Char) : Option Nat :=
  rlastIdxAux c s.toList 0

/-- The fixed notice `_truncate_for_model` appends after cutting. -/
def TRUNCATION_NOTICE : String := "\n\n[Content truncated for model context...]"

/-- `OpenAIService._truncate_for_model` (openai_service.py lines 517-526);
`GeminiService._truncate_for_model` (gemini_service.py lines 69-78) is
character-identical.  The Python guard `last_period > MAX_TOOL_TEXT_CHARS * 0.8`
compares an int to the exact float `16000.0`, i.e. `16000 < last_period`
(and is false for the `-1` returned when no `.` occurs). -/
def truncate_for_model (text : String) : String × Bool :=
  if text = "" ∨ text.length ≤ MAX_TOOL_TEXT_CHARS then (text, false)
  else
    let truncated := text.take MAX_TOOL_TEXT_CHARS
    let truncated :=
      match rfindIdx truncated '.' with
      | some i => if MAX_TOOL_TEXT_CHARS * 8 / 10 < i then truncated.take (i + 1) else truncated
      | none => truncated
    (truncated ++ TRUNCATION_NOTICE, true)

/-- The string a truthy text field holds: `None` / a missing key behave like
the empty string, which the truthiness guard then skips (non-strings never
reach these fields in the source). -/
def jstrOrEmpty : Option JVal → String
  | some (.jstr s) => s
  | _ => ""

/-- The treatment `_prepare_tool_output` applies to one text field
(`"full_text"` or `"text"`): when the field holds a truthy (non-empty) string
that gets truncated, store the truncated text and annotate with
`<field>_length` (the original length) and `<field>_truncated = True`.
Both services perform exactly this block for `"full_text"` and then `"text"`. -/
def truncateField (safe : Dict) (field : String) : Dict :=
  let s := jstrOrEmpty (dget safe field)
  if s ≠ "" then
    let r := truncate_for_model s
    if r.2 then
      dset (dset (dset safe field (.jstr r.1))
          (field ++ "_length") (.jnum s.length))
        (field ++ "_truncated") (.jbool true)
    else safe
  else safe

/-- `GeminiService._prepare_tool_output` (gemini_service.py lines 103-135):
drop `images`, truncate `full_text` then `text`. -/
def gemini_prepare_tool_output (result : Dict) : Dict :=
  truncateField (truncateField (dremove result "images") "full_text") "text"

/-- View of an image entry as a dict (every element of a tool result `images`
list is a dict in the source; anything else would already fail in Python). -/
def asObj : JVal → Dict
  | .jobj f => f
  | _ => []

/-- `image.get("byte_size") or 0`, as an integer (`0` both for a missing /
null field and for an explicit `0`). -/
def byteSizeOf (d : Dict) : Int :=
  match dget d "byte_size" with
  | some (.jnum n) => n
  | _ => 0

/-- The `input_image` entry appended to `image_inputs` for an accepted image. -/
def renderImageInput (d : Dict) : Dict :=
  let mime := match dget d "mime_type" with
    | some v => jvalStr v
    | none => "image/png"
  let dataTxt := match dget d "data_base64" with
    | some (.jstr s) => s
    | _ => ""
  [("type", .jstr "input_image"),
   ("image_url", .jstr ("data:" ++ mime ++ ";base64," ++ dataTxt))]

/-- The metadata entry appended to `image_meta` for a non-cap-rejected image. -/
def renderImageMeta (d : Dict) : Dict :=
  let mime : JVal := match dget d "mime_type" with
    | some v => v
    | none => .jstr "image/png"
  [("id", (dget d "id").getD .jnull),
   ("page", (dget d "page").getD .jnull),
   ("source", (dget d "source").getD .jnull),
   ("mime_type", mime),
   ("width", (dget d "width").getD .jnull),
   ("height", (dget d "height").getD .jnull),
   ("byte_size", (dget d "byte_size").getD .jnull)]

/-- State of the image loop in `OpenAIService._prepare_tool_output`
(openai_service.py lines 586-628): `image_inputs`, `image_meta`,
`skipped_images`, `total_image_bytes`. -/
structure ImgState where
  inputs : List Dict
  meta : List Dict
  skipped : Nat
  total : Int
deriving Repr, DecidableEq

/-- The `for image in images:` loop of `OpenAIService._prepare_tool_output`. -/
def processImages : List JVal → ImgState → ImgState
  | [], st => st
  | img :: rest, st =>
    let d := asObj img
    if MAX_TOOL_IMAGES ≤ st.inputs.length then
      processImages rest { st with skipped := st.skipped + 1 }
    else
      let b := byteSizeOf d
      if b ≠ 0 ∧ MAX_IMAGE_BYTES < b then
        processImages rest { st with skipped := st.skipped + 1 }
      else if b ≠ 0 ∧ MAX_IMAGE_TOTAL_BYTES < st.total + b then
        processImages rest { st with skipped := st.skipped + 1 }
      else if truthy (dget d "data_base64") then
        processImages rest
          { st with
            inputs := st.inputs ++ [renderImageInput d]
            total := st.total + b
            meta := st.meta ++ [renderImageMeta d] }
      else
        processImages rest { st with meta := st.meta ++ [renderImageMeta d] }

/-- `source_label` of `OpenAIService._prepare_tool_output`. -/
def sourceLabel (tool_name : String) (result : Dict) : String :=
  if truthy (dget result "url") then jvalStr ((dget result "url").getD .jnull)
  else if truthy (dget result "document_id") then jvalStr ((dget result "document_id").getD .jnull)
  else if truthy (dget result "package_id") then jvalStr ((dget result "package_id").getD .jnull)
  else tool_name

/-- One line of the image header text (`"- <label>"` built from a metadata
entry). -/
def imageMetaLine (m : Dict) : String :=
  let label := if truthy (dget m "id") then jvalStr ((dget m "id").getD .jnull) else "image"
  let details :=
    (if truthy (dget m "page") then ["page " ++ jvalStr ((dget m "page").getD .jnull)] else []) ++
    (if truthy (dget m "source") then [jvalStr ((dget m "source").getD .jnull)] else [])
  let label := if details ≠ [] then label ++ " (" ++ String.intercalate ", " details ++ ")" else label
  "- " ++ label

/-- The `message_item` built when some images were accepted: a user message
whose content is the header text block followed by the image inputs. -/
def buildImageMessage (tool_name : String) (result : Dict)
    (inputs : List Dict) (meta : List Dict) : Option Dict :=
  if inputs = [] then none
  else
    let header : Dict :=
      [("type", .jstr "input_text"),
       ("text", .jstr (String.intercalate "\n"
          (("Images extracted from " ++ sourceLabel tool_name result ++ ":") ::
            meta.map imageMetaLine)))]
    some [("type", .jstr "message"),
          ("role", .jstr "user"),
          ("content", .jarr ((header :: inputs).map .jobj))]

/-- The list a truthy `images` field holds (`images` is always a list or
absent/None in the source; the `if not images` guard skips the rest
otherwise). -/
def jarrOrNil : Option JVal → List JVal
  | some (.jarr l) => l
  | _ => []

/-- `OpenAIService._prepare_tool_output` (openai_service.py lines 551-669):
text truncation, image caps, image metadata and skip counting. -/
def prepare_tool_output (tool_name : String) (result : Dict) : Dict × Option Dict :=
  let images := dget result "images"
  let safe := dremove result "images"
  let safe := truncateField safe "full_text"
  let safe := truncateField safe "text"
  if ¬ truthy images then (safe, none)
  else
    let imgs := jarrOrNil images
    let fin := processImages imgs ⟨[], [], 0, 0⟩
    let msg := buildImageMessage tool_name result fin.inputs fin.meta
    let safe :=
      if fin.meta ≠ [] then
        let safe := dset safe "image_count" (.jnum fin.meta.length)
        let safe := dset safe "image_metadata" (.jarr (fin.meta.map .jobj))
        if 0 < fin.skipped then
          dset safe "images_skipped_for_model" (.jnum fin.skipped)
        else safe
      else if 0 < fin.skipped then
        dset (dset safe "image_count" (.jnum 0))
          "images_skipped_for_model" (.jnum fin.skipped)
      else safe
    (safe, msg)

/-- Number of `input_image` entries in a prepared model message. -/
def msgImageCount : Option Dict → Nat
  | none => 0
  | some m =>
    ((jarrOrNil (dget m "content")).filter
      (fun v => dget (asObj v) "type" = some (.jstr "input_image"))).length

/-! ## Tool executor (`tool_executor.py`) -/

/-- Outcome of awaiting a Python coroutine: a returned value or a raised
`Exception`. -/
inductive PyOutcome (α : Type) where
  | ok (val : α)
  | exc (msg : String)
deriving Repr, DecidableEq

/-- The tool names `ToolExecutor.execute_tool` dispatches on
(tool_executor.py lines 108-125). -/
def knownToolNames : List String :=
  ["regs_search_documents", "regs_search_dockets", "regs_get_document",
   "regs_read_document_content", "govinfo_search", "govinfo_package_summary",
   "govinfo_read_package_content", "fetch_url_content", "search_pdf_memory"]

/-- `ToolExecutor.execute_tool` (tool_executor.py lines 102-131), with the
dispatched `_exec_*` coroutine abstracted as `dispatch` (each of those bodies
delegates to an external collaborator).  The surrounding
`try ... except Exception as e` turns any raised exception into the ordinary
data result `{"error": str(e)}` paired with the same preview; an unknown tool
name yields an error result without a preview.  The function itself never
raises. -/
def execute_tool (tool_name : String) (dispatch : PyOutcome (Dict × Option Dict)) :
    Dict × Option Dict :=
  if tool_name ∈ knownToolNames then
    match dispatch with
    | .ok rp => rp
    | .exc m => ([("error", .jstr m)], some [("error", .jstr m)])
  else ([("error", .jstr ("Unknown tool: " ++ tool_name))], none)

/-- One tool call requested by a model round: the tool name and the behaviour
of the dispatched collaborator call when executed. -/
structure ToolCallReq where
  name : String
  dispatch : PyOutcome (Dict × Option Dict)

/-- The `for call in tool_calls:` body of `OpenAIService.chat_completions`
(openai_service.py lines 964-993), projected to the tool outputs attached for
the next model turn: each call contributes exactly one tool message carrying
its `safe_result`. -/
def ccRoundOutputs (calls : List ToolCallReq) : List Dict :=
  calls.map (fun c => (prepare_tool_output c.name (execute_tool c.name c.dispatch).1).1)

/-- `messages` after the round: the previous messages extended by one tool
message per call, in call order, after which the loop issues the next model
request. -/
def ccRoundMessages (messages : List Dict) (calls : List ToolCallReq) : List Dict :=
  messages ++ ccRoundOutputs calls

/-! ## Cancellation registry (`chat_cancellation.py`) -/

/-- Lookup in the `_events` table (event modelled by its set-flag). -/
def bget : List (String × Bool) → String → Option Bool
  | [], _ => none
  | p :: l, k => if p.1 = k then some p.2 else bget l k

/-- `self._events[request_id] = event`. -/
def bset : List (String × Bool) → String → Bool → List (String × Bool)
  | [], k, v => [(k, v)]
  | p :: l, k, v => if p.1 = k then (k, v) :: l else p :: bset l k v

/-- `self._events.pop(request_id, None)`. -/
def bpop (l : List (String × Bool)) (k : String) : List (String × Bool) :=
  l.filter (fun p => p.1 ≠ k)

/-- State of `ChatCancellationManager`: `_events` (each event represented by
whether it is set) and `_cancelled`.  Every method body runs under
`self._lock`, so each is modelled as one atomic state transition. -/
structure CancelState where
  events : List (String × Bool)
  cancelled : List String
deriving Repr, DecidableEq

/-- `ChatCancellationManager.register` (chat_cancellation.py lines 11-18):
create a fresh (unset) event; when the id is in `_cancelled`, set the event
and discard the id; store the event and return it (modelled by its set-flag
at the moment `register` returns). -/
def cancelRegister (s : CancelState) (request_id : String) : CancelState × Bool :=
  if request_id ∈ s.cancelled then
    ({ events := bset s.events request_id true,
       cancelled := s.cancelled.filter (fun x => x ≠ request_id) }, true)
  else
    ({ events := bset s.events request_id false, cancelled := s.cancelled }, false)

/-- `ChatCancellationManager.cancel` (chat_cancellation.py lines 20-27): set
the registered event when there is one, otherwise remember the id in
`_cancelled`; returns `True` either way. -/
def cancelCancel (s : CancelState) (request_id : String) : CancelState × Bool :=
  match bget s.events request_id with
  | some _ => ({ s with events := bset s.events request_id true }, true)
  | none =>
    ({ s with cancelled :=
        if request_id ∈ s.cancelled then s.cancelled
        else s.cancelled ++ [request_id] }, true)

/-- `ChatCancellationManager.clear` (chat_cancellation.py lines 29-32). -/
def cancelClear (s : CancelState) (request_id : String) : CancelState :=
  { events := bpop s.events request_id,
    cancelled := s.cancelled.filter (fun x => x ≠ request_id) }

/-- One manager call, for interleaving histories. -/
inductive CancelOp where
  | reg (id : String)
  | can (id : String)
  | clr (id : String)
deriving Repr, DecidableEq

def CancelOp.id : CancelOp → String
  | .reg i => i
  | .can i => i
  | .clr i => i

def applyCancelOp (s : CancelState) : CancelOp → CancelState
  | .reg i => (cancelRegister s i).1
  | .can i => (cancelCancel s i).1
  | .clr i => cancelClear s i

def applyCancelOps (s : CancelState) (ops : List CancelOp) : CancelState :=
  ops.foldl applyCancelOp s

/-! ## Source router (`_auto_select_sources` in both services) -/

/-- `pat` occurs in `hay` (Python `pat in hay` on strings). -/
def listHasInfix (pat : List Char) : List Char → Bool
  | [] => pat.isEmpty
  | x :: t => pat.isPrefixOf (x :: t) || listHasInfix pat t

def strHas (hay pat : String) : Bool :=
  listHasInfix pat.toList hay.toList

/-- Python `str.lower()`, ASCII range (every routing keyword is ASCII). -/
def pyLowerChar (c : Char) : Char :=
  if 'A' ≤ c ∧ c ≤ 'Z' then Char.ofNat (c.toNat + 32) else c

def pyLower (s : String) : String :=
  String.mk (s.toList.map pyLowerChar)

/-- The routing model call as the services consume it: either the call raised
(`failure`), or it returned text whose `_extract_json_object` parse is
`parsed` (`none` for an empty or unparsable answer — no JSON object could be
extracted from the raw text). -/
inductive RouterAnswer where
  | failure (msg : String)
  | reply (parsed : Option Dict)

/-- `[s for s in (data.get("sources") or []) if isinstance(s, str) and s in
allowed_sources]`, with `data = parsed or {}`. -/
def chosenFrom (allowed : Finset String) (parsed : Option Dict) : List String :=
  let data := parsed.getD []
  let srcs := match dget data "sources" with
    | some (.jarr l) => l
    | _ => []
  srcs.filterMap (fun v => match v with
    | .jstr s => if s ∈ allowed then some s else none
    | _ => none)

/-- `rationale if isinstance(rationale, str) else None`. -/
def rationaleFrom (parsed : Option Dict) : Option String :=
  match dget (parsed.getD []) "rationale" with
  | some (.jstr s) => some s
  | _ => none

/-- `GeminiService._auto_select_sources` (gemini_service.py lines 259-336):
guards for the empty and singleton allowed sets, then the routing call; an
exception falls back to the whole allowed set, and so does an answer with no
valid sources — both with an explanatory rationale. -/
def gemini_auto_select_sources (allowed : Finset String) (answer : RouterAnswer) :
    Finset String × Option String :=
  if allowed = ∅ then (∅, none)
  else if allowed.card = 1 then (allowed, some "Only one source available.")
  else
    match answer with
    | .failure _ => (allowed, some "Auto selection failed; using all allowed sources.")
    | .reply parsed =>
      let chosenSet := ((chosenFrom allowed parsed).take 6).toFinset
      if chosenSet ≠ ∅ then (chosenSet, rationaleFrom parsed)
      else (allowed, some "No valid selection returned; using all allowed sources.")

/-- The keyword picks of the heuristic fallback in
`OpenAIService._auto_select_sources` (openai_service.py lines 834-851),
applied to the lowercased message. -/
def heuristicPicks (msg : String) : List String :=
  (if ["bill", "hr", "h.r.", "s.", "senate", "house", "congress", "roll call",
       "vote"].any (fun k => strHas msg k) then ["congress"] else []) ++
  (if ["federal register", "fr ", "presidential", "executive order"].any
       (fun k => strHas msg k) then ["federal_register", "govinfo"] else []) ++
  (if ["spending", "contract", "grant", "award", "procurement", "usaspending"].any
       (fun k => strHas msg k) then ["usaspending"] else []) ++
  (if ["debt", "deficit", "receipts", "outlays", "treasury", "interest rate"].any
       (fun k => strHas msg k) then ["fiscal_data"] else []) ++
  (if ["dataset", "data.gov", "csv", "open data"].any
       (fun k => strHas msg k) then ["datagov"] else []) ++
  (if ["doj", "justice department", "press release", "indictment"].any
       (fun k => strHas msg k) then ["doj"] else []) ++
  (if ["regulation", "rulemaking", "proposed rule", "final rule", "docket",
       "cfr"].any (fun k => strHas msg k) then ["regulations", "govinfo"] else [])

/-- The `except` path of `OpenAIService._auto_select_sources`
(openai_service.py lines 831-859): keyword picks on the lowercased message,
intersected with the allowed set, with two backstops (`regulations`/`govinfo`
when allowed, else the first two allowed sources in sorted order), capped at
4 sources, rationale "Heuristic fallback.". -/
def openaiHeuristicFallback (message : String) (allowed : Finset String) :
    Finset String × Option String :=
  let msg := pyLower message
  let picks := heuristicPicks msg
  let fallback := picks.filter (fun p => p ∈ allowed)
  let fallback :=
    if fallback = [] then ["regulations", "govinfo"].filter (fun p => p ∈ allowed)
    else fallback
  let fallback :=
    if fallback = [] then (allowed.sort (· ≤ ·)).take 2 else fallback
  ((fallback.take 4).toFinset, some "Heuristic fallback.")

/-- `OpenAIService._auto_select_sources` (openai_service.py lines 771-859):
same guards as the Gemini router; a parsed reply yields `set(chosen[:6])`
(possibly empty) with the parsed rationale, while an exception in the routing
call falls back to the keyword heuristic — not to the whole allowed set. -/
def openai_auto_select_sources (message : String) (allowed : Finset String)
    (answer : RouterAnswer) : Finset String × Option String :=
  if allowed = ∅ then (∅, none)
  else if allowed.card = 1 then (allowed, some "Only one source available.")
  else
    match answer with
    | .reply parsed =>
      (((chosenFrom allowed parsed).take 6).toFinset, rationaleFrom parsed)
    | .failure _ => openaiHeuristicFallback message allowed

/-- The fallback every chat entry point applies right after auto selection
(`if not selected_sources: selected_sources = allowed_sources`, e.g.
openai_service.py lines 921-922, gemini_service.py lines 367-368). -/
def resolveSelected (allowed : Finset String) (r : Finset String × Option String) :
    Finset String × Option String :=
  (if r.1 = ∅ then allowed else r.1, r.2)

/-! ## Conversation loops (`GeminiService.chat`, `OpenAIService.chat`) -/

/-- `max_iterations = 20` (gemini_service.py lines 418 and 591). -/
def max_iterations : Nat := 20

/-- A part of `response.candidates[0].content.parts` in a Gemini response, as
the loop inspects it: a function call or answer text. -/
inductive GPart where
  | functionCall (name : String) (args : Dict)
  | text (t : String)
deriving Repr, DecidableEq

/-- A Gemini `generate_content` response projected to
`response.candidates[0].content.parts`; `none` models a response without
candidates or content. -/
abbrev GResponse := Option (List GPart)

/-- The function-call parts collected by the loop header. -/
def gCalls : GResponse → List (String × Dict)
  | none => []
  | some parts => parts.filterMap (fun p => match p with
      | .functionCall n a => some (n, a)
      | .text _ => none)

/-- The answer text extracted after the loop: concatenation of the text
parts. -/
def gText : GResponse → String
  | none => ""
  | some parts => parts.foldl (fun acc p => match p with
      | .text t => acc ++ t
      | .functionCall _ _ => acc) ""

/-- The `while iteration < max_iterations:` loop of `GeminiService.chat`
(gemini_service.py lines 417-493), with the model abstracted as an oracle
giving the response to the k-th `generate_content` request (the initial
request is call 0).  The loop increments `iteration`, breaks when the current
response has no function calls, and otherwise executes the calls and issues
the next request.  Returns the response in hand at loop exit and the final
value of `iteration`. -/
def geminiLoop (oracle : Nat → GResponse) (resp : GResponse)
    (callIdx iteration : Nat) : GResponse × Nat :=
  if iteration < max_iterations then
    let iteration' := iteration + 1
    if gCalls resp = [] then (resp, iteration')
    else geminiLoop oracle (oracle callIdx) (callIdx + 1) iteration'
  else (resp, iteration)
termination_by max_iterations - iteration

/-- `GeminiService.chat` after source resolution: the answer text and the
final iteration count. -/
def gemini_chat (oracle : Nat → GResponse) : String × Nat :=
  let r := geminiLoop oracle (oracle 0) 1 0
  (gText r.1, r.2)

/-- An item of `response.output` in the OpenAI Responses API as
`OpenAIService.chat` consumes it. -/
inductive OItem where
  | functionCall (name : String) (arguments : String) (call_id : String)
  | message (text : String)
deriving Repr, DecidableEq

abbrev OResponse := List OItem

/-- `[item for item in response.output if item.type == "function_call"]`. -/
def oCalls (r : OResponse) : List OItem :=
  r.filter (fun i => match i with
    | .functionCall _ _ _ => true
    | .message _ => false)

/-- Observation of the unbounded `while True:` loop of `OpenAIService.chat`
(openai_service.py lines 1218-1272) for `fuel` round-trips: `some r` when the
loop exits within `fuel` iterations (a response without function calls was
reached), `none` when it is still looping after `fuel` iterations.  The
source loop has no iteration bound, so the fuel is only an observation
horizon, not part of the code. -/
def openaiChatLoop (oracle : Nat → OResponse) (resp : OResponse) (callIdx : Nat) :
    Nat → Option OResponse
  | 0 => none
  | fuel + 1 =>
    if oCalls resp = [] then some resp
    else openaiChatLoop oracle (oracle callIdx) (callIdx + 1) fuel

/-- A model turn that requests one more tool call, used to observe the loop on
a model that keeps requesting tools forever. -/
def alwaysToolResponse : OResponse :=
  [.functionCall "fetch_url_content" "\x7b\x7d" "call_1"]

/-! ## Step event traces (`chat_stream` loops) -/

/-- A Step event as yielded on the stream: `running` announces the step id,
`finished` closes it (`ok = true` for status `done`, `false` for `error`). -/
inductive StepEv where
  | running (step_id : Nat)
  | finished (step_id : Nat) (ok : Bool)
deriving Repr, DecidableEq

/-- The Step events yielded by one tool round of `GeminiService.chat_stream`
(gemini_service.py lines 610-652) and `OpenAIService.chat_completions_stream`
(openai_service.py lines 1082-1122): for each call, in order, one `running`
event with a freshly incremented `step_counter` and then — after the
sequential `await execute_tool` — one `done`/`error` event with the same id.
`outcome = true` models `"error" not in safe_result`. -/
def roundTrace (c0 : Nat) : List Bool → List StepEv
  | [] => []
  | ok :: rest => .running (c0 + 1) :: .finished (c0 + 1) ok :: roundTrace (c0 + 1) rest

/-- The whole multi-round trace: `step_counter` carries over across rounds. -/
def roundsTrace (c0 : Nat) : List (List Bool) → List StepEv
  | [] => []
  | r :: rs => roundTrace c0 r ++ roundsTrace (c0 + r.length) rs

def isRunningEv : StepEv → Bool
  | .running _ => true
  | .finished _ _ => false

def isFinishedEv : StepEv → Bool
  | .running _ => false
  | .finished _ _ => true

/-! ## Gemini service construction (`GeminiService.__init__`) -/

inductive PyError where
  | typeError (msg : String)
  | valueError (msg : String)
deriving Repr, DecidableEq

/-- The parameter names `ToolExecutor.__init__` accepts besides `self`
(tool_executor.py line 16). -/
def toolExecutorInitParams : List String := ["session_id"]

/-- Python keyword-argument binding: a call raises `TypeError` as soon as some
keyword matches no parameter. -/
def bindKwargs (params : List String) (kwargs : List String) : Except PyError Unit :=
  match kwargs.find? (fun k => ¬ params.contains k) with
  | some k => .error (.typeError ("__init__() got an unexpected keyword argument " ++ k))
  | none => .ok ()

/-- `GeminiService.__init__` (gemini_service.py lines 41-58), up to external
effects: resolve `api_key or settings.google_api_key`, raise `ValueError`
when it is empty, construct the SDK client (external, no model request is
issued), then call
`ToolExecutor(session_id=session_id, embedding_config=embedding_config)`.
No model request occurs anywhere in this sequence. -/
def geminiServiceInit (api_key : Option String) (settings_google_api_key : String) :
    Except PyError Unit :=
  let effective := match api_key with
    | some k => if k ≠ "" then k else settings_google_api_key
    | none => settings_google_api_key
  if effective = "" then
    .error (.valueError "Google API key is required for Gemini service")
  else
    bindKwargs toolExecutorInitParams ["session_id", "embedding_config"]

/-! ## Retrieval memory (`pdf_memory.py`, `PdfMemoryStore`)

The chroma collection is modelled as a list of rows per collection key; sha
digests (hashlib, external) and the embedding providers (external network /
local model calls wrapped by `_embed_texts`) are abstracted as function
parameters.  Vector components and distances are carried as `Int` (stand-in
for the floats, which none of the claims inspect). -/

/-- `EmbeddingConfig` — Modelled from the spec: the class is imported from
`app.models.schemas`, whose definition is not present under `src/`; spec §3
describes it as "provider key, model name, optional api key/base url", and
every use site (`_resolve_embedding_config`, `_collection_name_for`) treats
all four fields as optional strings. -/
structure EmbeddingConfigM where
  provider : Option String
  model : Option String
  api_key : Option String
  base_url : Option String
deriving Repr, DecidableEq

/-- The settings fields `PdfMemoryStore` reads (config.py); the api key and
base url fields are carried as `Option String` so that Python `x or y`
truthiness chains can be modelled uniformly by `pyOr`. -/
structure RagSettings where
  embedding_provider : String
  embedding_model : String
  openai_api_key : Option String
  openai_base_url : Option String
  huggingface_api_key : Option String
  huggingface_base_url : Option String
  rag_chunk_size : Nat
  rag_chunk_overlap : Nat
  rag_max_chunks : Nat
  rag_top_k : Nat
deriving Repr, DecidableEq

/-- Python `a or b` on optional strings (`None` and `""` are falsy). -/
def pyOr (a b : Option String) : Option String :=
  match a with
  | some s => if s = "" then b else some s
  | none => b

/-- `PdfMemoryStore._resolve_embedding_config` (pdf_memory.py lines 143-170). -/
def resolve_embedding_config (st : RagSettings) (config : Option EmbeddingConfigM) :
    EmbeddingConfigM :=
  let base : EmbeddingConfigM :=
    match config with
    | some c =>
      ⟨c.provider, pyOr c.model (some st.embedding_model), c.api_key, c.base_url⟩
    | none => ⟨some st.embedding_provider, some st.embedding_model, none, none⟩
  if base.provider = some "openai" then
    ⟨base.provider, base.model, pyOr base.api_key st.openai_api_key,
      pyOr base.base_url st.openai_base_url⟩
  else if base.provider = some "huggingface" then
    ⟨base.provider, base.model, pyOr base.api_key st.huggingface_api_key,
      pyOr base.base_url st.huggingface_base_url⟩
  else base

/-- `PdfMemoryStore._collection_name_for` (pdf_memory.py lines 110-117) names
the collection `f"{base}-{slug}-{digest}"` from the lowercased
`(provider or "local", model or "default")` pair; the embedded sha1 digest of
that pair makes the name injective on it, so the collection key is modelled
as the pair itself. -/
def collKey (c : EmbeddingConfigM) : String × String :=
  ((c.provider.getD "local").toLower, (c.model.getD "default").toLower)

/-- One stored chunk: chroma id, document text, metadata, embedding. -/
structure MemRow where
  id : String
  doc : String
  meta : Dict
  emb : List Int
deriving Repr, DecidableEq

/-- The persistent store: rows per collection key. -/
abbrev MemStore := List ((String × String) × List MemRow)

def storeGet : MemStore → (String × String) → Option (List MemRow)
  | [], _ => none
  | p :: s, k => if p.1 = k then some p.2 else storeGet s k

def storeSet : MemStore → (String × String) → List MemRow → MemStore
  | [], k, v => [(k, v)]
  | p :: s, k, v => if p.1 = k then (k, v) :: s else p :: storeSet s k v

/-- `_get_collection`: `get_or_create_collection` creates an empty collection
when the name is new (data-wise; the in-process collection cache has no data
effect). -/
def getOrCreate (s : MemStore) (k : String × String) : MemStore :=
  match storeGet s k with
  | some _ => s
  | none => s ++ [(k, [])]

/-- A metadata `where` clause of string equalities (`_where_all` over non-null
filters, all call sites pass non-null strings): a row matches when each filter
key equals the given string in its metadata. -/
def rowMatches (filters : List (String × String)) (r : MemRow) : Bool :=
  filters.all (fun f => dget r.meta f.1 = some (.jstr f.2))

/-- `c = ' ' or c = '\t'` — the class of `re.sub(r"[ \t]+", " ", ...)`. -/
def isSpaceTab (c : Char) : Bool := c = ' ' || c = '\t'

/-- `re.sub(r"[ \t]+", " ", text)`: collapse every run of spaces/tabs to one
space; the flag records whether the previous character was in the class. -/
def collapseSpaceRuns : List Char → Bool → List Char
  | [], _ => []
  | c :: rest, prevWs =>
    if isSpaceTab c then
      if prevWs then collapseSpaceRuns rest true
      else ' ' :: collapseSpaceRuns rest true
    else c :: collapseSpaceRuns rest false

/-- `re.sub(r"\n{3,}", "\n\n", text)`: a run of `n ≥ 3` newlines becomes two,
shorter runs stay; equivalently, at most two newlines of every run are kept
(`seen` counts the newlines already emitted in the current run). -/
def collapseNewlineRuns : List Char → Nat → List Char
  | [], _ => []
  | c :: rest, seen =>
    if c = '\n' then
      if seen < 2 then '\n' :: collapseNewlineRuns rest (seen + 1)
      else collapseNewlineRuns rest seen
    else c :: collapseNewlineRuns rest 0

/-- Python `str.strip()` whitespace. -/
def pyWhitespace (c : Char) : Bool :=
  c = ' ' || c = '\t' || c = '\n' || c = '\r' || c = '\x0b' || c = '\x0c'

def pyStrip (l : List Char) : List Char :=
  ((l.dropWhile pyWhitespace).reverse.dropWhile pyWhitespace).reverse

/-- `text.replace("\r\n", "\n").replace("\r", "\n")`: the sequential
left-to-right replacements amount to mapping every CRLF pair and every
remaining lone CR to LF. -/
def normNewlines : List Char → List Char
  | [] => []
  | '\r' :: '\n' :: rest => '\n' :: normNewlines rest
  | '\r' :: rest => '\n' :: normNewlines rest
  | c :: rest => c :: normNewlines rest

/-- `PdfMemoryStore._normalize_text` (pdf_memory.py lines 72-76). -/
def normalize_text (text : String) : String :=
  String.mk (pyStrip (collapseNewlineRuns (collapseSpaceRuns (normNewlines text.toList) false) 0))

/-- The `while start < len(text):` loop of `PdfMemoryStore._chunk_text`
(pdf_memory.py lines 85-94).  When `start + cs < len` the slice is a full
chunk of `cs` characters and the loop continues at `start + cs - ov` unless
the chunk cap is reached; otherwise the final (short) chunk ends the loop. -/
def chunkGo (text : List Char) (cs ov : Nat) (hov : ov < cs) (maxc : Nat)
    (start : Nat) (acc : List String) : List String :=
  if h : start < text.length then
    if h2 : start + cs < text.length then
      if 0 < maxc ∧ maxc ≤ (acc ++ [String.mk ((text.drop start).take cs)]).length then
        acc ++ [String.mk ((text.drop start).take cs)]
      else
        chunkGo text cs ov hov maxc (start + cs - ov)
          (acc ++ [String.mk ((text.drop start).take cs)])
    else acc ++ [String.mk ((text.drop start).take (text.length - start))]
  else acc
termination_by text.length - start
decreasing_by omega

/-- `PdfMemoryStore._chunk_text` (pdf_memory.py lines 78-103): clamp the chunk
size to at least 200 and the overlap to at most half of it, normalize, return
no chunks for empty text, else run the slicing loop. -/
def chunk_text (st : RagSettings) (text : String) : List String :=
  let cs := max 200 st.rag_chunk_size
  let ov := min st.rag_chunk_overlap (cs / 2)
  let t := (normalize_text text).toList
  if t.isEmpty then []
  else
    chunkGo t cs ov
      (by
        have h200 : 200 ≤ max 200 st.rag_chunk_size := Nat.le_max_left _ _
        have hmin := Nat.min_le_right st.rag_chunk_overlap (max 200 st.rag_chunk_size / 2)
        omega)
      st.rag_max_chunks 0 []

/-- `PdfMemoryStore._make_chunk_ids` (pdf_memory.py lines 105-108); `sha1`
abstracts `hashlib.sha1(...).hexdigest()`. -/
def make_chunk_ids (sha1 : String → String) (session_id doc_key : String)
    (count : Nat) : List String :=
  let key_hash := sha1 doc_key
  let pfx := (session_id.replace "-" "").take 12
  (List.range count).map (fun i => pfx ++ "_" ++ key_hash ++ "_" ++ toString i)

/-- `range(0, len(chunks), batch_size)` slicing with `batch_size = 32`. -/
def batchList (l : List String) : List (List String) :=
  if l = [] then [] else l.take 32 :: batchList (l.drop 32)
termination_by l.length
decreasing_by
  rename_i hne
  have : 0 < l.length := List.length_pos.mpr hne
  simp only [List.length_drop]
  omega

/-- The per-batch embedding loop of `add_document` (pdf_memory.py lines
384-394): call `_embed_texts` on each batch and extend; an empty result (the
failure sentinel of `_embed_texts`) aborts the whole add.  Also counts the
`_embed_texts` calls that were made. -/
def embedBatches (embedTexts : List String → List (List Int)) :
    List (List String) → Option (List (List Int)) × Nat
  | [] => (some [], 0)
  | b :: rest =>
    let e := embedTexts b
    if e = [] then (none, 1)
    else
      match embedBatches embedTexts rest with
      | (none, n) => (none, n + 1)
      | (some es, n) => (some (e ++ es), n + 1)

/-- Chroma `upsert` of one row: replace the row with the same id in place, or
append. -/
def upsertOne (rows : List MemRow) (r : MemRow) : List MemRow :=
  if rows.any (fun x => x.id = r.id) then
    rows.map (fun x => if x.id = r.id then r else x)
  else rows ++ [r]

def upsertRows (rows : List MemRow) (items : List MemRow) : List MemRow :=
  items.foldl upsertOne rows

/-- The rows handed to `collection.upsert` (parallel lists zipped). -/
def buildRows (ids chunks : List String) (metas : List Dict)
    (embs : List (List Int)) : List MemRow :=
  (ids.zip (chunks.zip (metas.zip embs))).map
    (fun p => ⟨p.1, p.2.1, p.2.2.1, p.2.2.2⟩)

/-- `PdfMemoryStore.add_document` (pdf_memory.py lines 345-440): guard empty
arguments, chunk, hash, build the base metadata (`update`d with the caller
metadata), fetch the collection, skip everything when a chunk set for
(session, doc_key, doc_hash) already exists, else embed all batches (aborting
on the empty sentinel), then — atomically under `self._lock` — delete the
prior (session, doc_key) chunk set and upsert the new rows.  Returns the new
store and the number of `_embed_texts` calls made.  (The chroma
dimension-mismatch retry concerns only the external index and has no
data-level effect here.) -/
def add_document (st : RagSettings) (sha256 sha1 : String → String)
    (embedTexts : List String → List (List Int)) (store : MemStore)
    (session_id doc_key text : String) (metadata : Dict)
    (embedding_config : Option EmbeddingConfigM) : MemStore × Nat :=
  if session_id = "" ∨ doc_key = "" ∨ text = "" then (store, 0)
  else
    let chunks := chunk_text st text
    if chunks = [] then (store, 0)
    else
      let doc_hash := sha256 text
      let base_meta := dictUpdate
        [("session_id", .jstr session_id), ("doc_key", .jstr doc_key),
         ("doc_hash", .jstr doc_hash)] metadata
      let rcfg := resolve_embedding_config st embedding_config
      let key := collKey rcfg
      let store' := getOrCreate store key
      let rows := (storeGet store' key).getD []
      if rows.any (rowMatches [("session_id", session_id), ("doc_key", doc_key),
          ("doc_hash", doc_hash)]) then
        (store', 0)
      else
        let eb := embedBatches embedTexts (batchList chunks)
        eb.1.elim (store', eb.2) (fun embeddings =>
          let ids := make_chunk_ids sha1 session_id doc_key chunks.length
          let metadatas := (List.range chunks.length).map (fun i : Nat =>
            dset (dset base_meta "chunk_index" (.jnum (Int.ofNat i)))
              "total_chunks" (.jnum (Int.ofNat chunks.length)))
          let newRows := buildRows ids chunks metadatas embeddings
          let kept := rows.filter (fun r =>
            ¬ rowMatches [("session_id", session_id), ("doc_key", doc_key)] r)
          (storeSet store' key (upsertRows kept newRows), eb.2))

/-- One query match (`{"text": ..., "score": ..., "metadata": ...}`). -/
structure MemMatch where
  text : String
  score : Option Int
  metadata : Dict
deriving Repr, DecidableEq

/-- Chroma `collection.query` with `where={"session_id": session_id}`: keep
only that session's rows, rank by distance to the query embedding, return the
closest `n_results`. -/
def chromaQuery (dist : List Int → List Int → Int) (rows : List MemRow)
    (q : List Int) (n : Nat) (session_id : String) : List MemRow :=
  ((rows.filter (fun r => dget r.meta "session_id" = some (.jstr session_id))).mergeSort
    (fun a b => dist q a.emb ≤ dist q b.emb)).take n

/-- `PdfMemoryStore.query` (pdf_memory.py lines 442-486): guard empty
arguments, default `top_k` (`top_k or settings.rag_top_k`: `0` is falsy),
embed the query (empty sentinel gives no matches), then similarity search
restricted to the session inside the config's collection, scored `1 - d`. -/
def pdf_query (st : RagSettings) (embedTexts : List String → List (List Int))
    (dist : List Int → List Int → Int) (store : MemStore)
    (session_id query_text : String) (top_k : Option Nat)
    (embedding_config : Option EmbeddingConfigM) : List MemMatch :=
  if session_id = "" ∨ query_text = "" then []
  else
    let k := match top_k with
      | some n => if n = 0 then st.rag_top_k else n
      | none => st.rag_top_k
    let embs := embedTexts [query_text]
    if embs = [] then []
    else
      let q := embs.headD []
      let rcfg := resolve_embedding_config st embedding_config
      let rows := (storeGet store (collKey rcfg)).getD []
      (chromaQuery dist rows q k session_id).map
        (fun r => ⟨r.doc, some (1 - dist q r.emb), r.meta⟩)

/-- One ingest request, for histories of `add_document` calls. -/
structure IngestOp where
  session : String
  doc_key : String
  text : String
  metadata : Dict
  cfg : Option EmbeddingConfigM

/-- Run a history of ingest operations (each one `add_document`). -/
def runIngest (st : RagSettings) (sha256 sha1 : String → String)
    (embedTexts : List String → List (List Int)) (store : MemStore)
    (ops : List IngestOp) : MemStore :=
  ops.foldl (fun s op =>
    (add_document st sha256 sha1 embedTexts s op.session op.doc_key op.text
      op.metadata op.cfg).1) store

/-- All rows of a store, across collections. -/
def storeRows (s : MemStore) : List MemRow :=
  (s.map (fun p => p.2)).flatten

/-! # Theorems

First the generic dictionary lemmas, then per-claim developments. -/

theorem dget_dset_self (d : Dict) (k : String) (v : JVal) :
    dget (dset d k v) k = some v := by
  induction d with
  | nil => simp [dset, dget]
  | cons q d ih =>
    by_cases hq : q.1 = k
    · simp [dset, dget, hq]
    · simp [dset, dget, hq, ih]

theorem dget_dset_ne (d : Dict) (k k' : String) (v : JVal) (h : k' ≠ k) :
    dget (dset d k v) k' = dget d k' := by
  have hkk : ¬ (k = k') := fun hh => h (hh.symm)
  induction d with
  | nil => simp [dset, dget, hkk]
  | cons q d ih =>
    by_cases hq : q.1 = k
    · simp [dset, dget, hq, hkk]
    · by_cases hq' : q.1 = k'
      · show dget (if q.1 = k then (k, v) :: d else q :: dset d k v) k' = _
        rw [if_neg hq]
        show (if q.1 = k' then some q.2 else dget (dset d k v) k') = _
        rw [if_pos hq']
        show _ = (if q.1 = k' then some q.2 else dget d k')
        rw [if_pos hq']
      · simp [dset, dget, hq, hq', ih]

theorem dget_dictUpdate_not_mem (d : Dict) (e : Dict) (k : String)
    (h : ∀ p ∈ e, p.1 ≠ k) : dget (dictUpdate d e) k = dget d k := by
  induction e generalizing d with
  | nil => rfl
  | cons p e ih =>
    unfold dictUpdate
    simp only [List.foldl_cons]
    have step : dget (dset d p.1 p.2) k = dget d k :=
      dget_dset_ne d p.1 k p.2 (fun hk => h p (List.mem_cons_self p e) hk.symm)
    have := ih (dset d p.1 p.2) (fun q hq => h q (List.mem_cons_of_mem p hq))
    unfold dictUpdate at this
    rw [this, step]

/-! ## C2: cancel-before-register is never lost -/

theorem mem_cancelled_applyOp (s : CancelState) (op : CancelOp) (id : String)
    (hop : op.id ≠ id) (h : id ∈ s.cancelled) :
    id ∈ (applyCancelOp s op).cancelled := by
  cases op with
  | reg i =>
    simp only [CancelOp.id] at hop
    simp only [applyCancelOp, cancelRegister]
    split
    · simp only [List.mem_filter, decide_eq_true_eq]
      exact ⟨h, fun hh => hop (hh.symm)⟩
    · exact h
  | can i =>
    simp only [applyCancelOp, cancelCancel]
    cases bget s.events i with
    | some b => exact h
    | none =>
      simp only
      split
      · exact h
      · exact List.mem_append_left _ h
  | clr i =>
    simp only [CancelOp.id] at hop
    simp only [applyCancelOp, cancelClear]
    simp only [List.mem_filter, decide_eq_true_eq]
    exact ⟨h, fun hh => hop (hh.symm)⟩

theorem mem_cancelled_applyOps (s : CancelState) (ops : List CancelOp) (id : String)
    (hops : ∀ op ∈ ops, op.id ≠ id) (h : id ∈ s.cancelled) :
    id ∈ (applyCancelOps s ops).cancelled := by
  induction ops generalizing s with
  | nil => exact h
  | cons op ops ih =>
    exact ih (applyCancelOp s op)
      (fun o ho => hops o (List.mem_cons_of_mem op ho))
      (mem_cancelled_applyOp s op id (hops op (List.mem_cons_self op ops)) h)

/-- Claim C2: if `cancel(id)` runs before `register(id)` (the id is not yet in
the events table), then — whatever other manager calls for other request ids
happen in between — the event returned by the later `register(id)` is already
set at the moment `register` returns.  All manager methods are serialized by
`self._lock`, so histories are modelled as sequences of atomic operations. -/
theorem cancel_before_register_honored (s : CancelState) (id : String)
    (ops : List CancelOp) (hreg : bget s.events id = none)
    (hops : ∀ op ∈ ops, op.id ≠ id) :
    (cancelRegister (applyCancelOps (cancelCancel s id).1 ops) id).2 = true := by
  have h1 : id ∈ (cancelCancel s id).1.cancelled := by
    simp only [cancelCancel, hreg]
    split
    · assumption
    · exact List.mem_append_right _ (List.mem_singleton.mpr rfl)
  have h2 : id ∈ (applyCancelOps (cancelCancel s id).1 ops).cancelled :=
    mem_cancelled_applyOps _ ops id hops h1
  simp only [cancelRegister, h2, if_pos]

/-- Witness for C2: a fresh manager; `cancel("r1")` arrives first, then calls
for an unrelated id `"r2"`, then `register("r1")` returns an already-set
event. -/
theorem cancel_before_register_honored_witness :
    bget (CancelState.mk [] []).events "r1" = none ∧
    (∀ op ∈ [CancelOp.can "r2", CancelOp.reg "r2", CancelOp.clr "r2"], op.id ≠ "r1") ∧
    (cancelRegister
      (applyCancelOps (cancelCancel (CancelState.mk [] []) "r1").1
        [CancelOp.can "r2", CancelOp.reg "r2", CancelOp.clr "r2"]) "r1").2 = true :=
  ⟨rfl, by decide,
    cancel_before_register_honored (CancelState.mk [] []) "r1"
      [CancelOp.can "r2", CancelOp.reg "r2", CancelOp.clr "r2"] rfl (by decide)⟩

/-! ## C10: `GeminiService.__init__` always raises `TypeError` -/

/-- Claim C10: constructing the Gemini provider adapter with a non-empty API
key raises `TypeError`: after the key check passes, `GeminiService.__init__`
calls `ToolExecutor(session_id=..., embedding_config=...)` while
`ToolExecutor.__init__` accepts only `session_id`, so keyword binding fails.
No model request occurs anywhere in the modelled sequence (the SDK client
constructor performs none), so the Gemini backend can never be instantiated. -/
theorem gemini_init_raises_type_error (api_key settings_key : String)
    (h : api_key ≠ "") :
    geminiServiceInit (some api_key) settings_key =
      .error (.typeError "__init__() got an unexpected keyword argument embedding_config") := by
  simp only [geminiServiceInit, h, if_true, if_false, ite_not, ite_true, ite_false,
    ne_eq, not_false_eq_true, bindKwargs, toolExecutorInitParams]
  rfl

/-- Witness for C10 at the concrete key `"k"`. -/
theorem gemini_init_raises_type_error_witness :
    ("k" : String) ≠ "" ∧
    geminiServiceInit (some "k") "" =
      .error (.typeError "__init__() got an unexpected keyword argument embedding_config") :=
  ⟨by decide, gemini_init_raises_type_error "k" "" (by decide)⟩

/-! ## C5: tool failures are data, not exceptions -/

theorem prepare_error_dict (name m : String) :
    prepare_tool_output name [("error", .jstr m)] = ([("error", .jstr m)], none) := by
  simp [prepare_tool_output, truncateField, dremove, dget, truthy, List.filter, jstrOrEmpty]

/-- Claim C5: `execute_tool` never propagates an exception from its
collaborator — a raising dispatch yields the ordinary data result
`{"error": msg}` (with the same preview) — and in the
`OpenAIService.chat_completions` round each call contributes exactly its own
tool output: the `j`-th attached output depends only on the `j`-th call, so
one failing call leaves every other result untouched, and the round attaches
all outputs to the next model turn. -/
theorem tool_error_isolated (messages : List Dict) (calls : List ToolCallReq)
    (i : Nat) (m : String) (c : ToolCallReq)
    (hc : calls[i]? = some c) (hname : c.name ∈ knownToolNames)
    (hexc : c.dispatch = .exc m) :
    execute_tool c.name c.dispatch = ([("error", .jstr m)], some [("error", .jstr m)]) ∧
    (ccRoundOutputs calls)[i]? = some [("error", .jstr m)] ∧
    (∀ j : Nat, (ccRoundOutputs calls)[j]? = (calls[j]?).map
      (fun d : ToolCallReq => (prepare_tool_output d.name (execute_tool d.name d.dispatch).1).1)) ∧
    ccRoundMessages messages calls = messages ++ ccRoundOutputs calls ∧
    (ccRoundMessages messages calls).length = messages.length + calls.length := by
  have hexec : execute_tool c.name c.dispatch =
      ([("error", .jstr m)], some [("error", .jstr m)]) := by
    simp [execute_tool, hname, hexc]
  refine ⟨hexec, ?_, ?_, rfl, ?_⟩
  · rw [ccRoundOutputs, List.getElem?_map, hc]
    simp [hexec, prepare_error_dict]
  · intro j
    rw [ccRoundOutputs, List.getElem?_map]
  · simp [ccRoundMessages, ccRoundOutputs]

/-- A round of three tool calls whose second collaborator raises. -/
def exCallOk1 : ToolCallReq :=
  ⟨"regs_search_documents", .ok ([("count", .jnum 2)], some [("count", .jnum 2)])⟩

def exCallBoom : ToolCallReq := ⟨"govinfo_search", .exc "boom"⟩

def exCallOk3 : ToolCallReq :=
  ⟨"fetch_url_content", .ok ([("url", .jstr "https://example.gov")], none)⟩

/-- Witness for C5: the spec scenario — three calls, the second raises; it
alone becomes `{"error": "boom"}` and all three outputs are attached. -/
theorem tool_error_isolated_witness :
    ([exCallOk1, exCallBoom, exCallOk3] : List ToolCallReq)[1]? = some exCallBoom ∧
    exCallBoom.name ∈ knownToolNames ∧
    exCallBoom.dispatch = .exc "boom" ∧
    (execute_tool exCallBoom.name exCallBoom.dispatch =
      ([("error", .jstr "boom")], some [("error", .jstr "boom")]) ∧
    (ccRoundOutputs [exCallOk1, exCallBoom, exCallOk3])[1]? =
      some [("error", .jstr "boom")] ∧
    (∀ j : Nat, (ccRoundOutputs [exCallOk1, exCallBoom, exCallOk3])[j]? =
      (([exCallOk1, exCallBoom, exCallOk3] : List ToolCallReq)[j]?).map
        (fun d : ToolCallReq => (prepare_tool_output d.name (execute_tool d.name d.dispatch).1).1)) ∧
    ccRoundMessages [] [exCallOk1, exCallBoom, exCallOk3] =
      [] ++ ccRoundOutputs [exCallOk1, exCallBoom, exCallOk3] ∧
    (ccRoundMessages [] [exCallOk1, exCallBoom, exCallOk3]).length =
      ([] : List Dict).length + 3) :=
  ⟨rfl, by decide, rfl,
    tool_error_isolated [] [exCallOk1, exCallBoom, exCallOk3] 1 "boom" exCallBoom
      rfl (by decide) rfl⟩

/-! ## C4: step events are emitted in order, none dangling -/

theorem roundTrace_canonical (c : Nat) (r : List Bool) :
    roundTrace c r = ((List.enumFrom (c + 1) r).map
      (fun p => [StepEv.running p.1, StepEv.finished p.1 p.2])).flatten := by
  induction r generalizing c with
  | nil => rfl
  | cons ok rest ih =>
    simp only [roundTrace, List.enumFrom, List.map_cons, List.flatten_cons, ih (c + 1)]
    rfl

theorem roundTrace_counts (c : Nat) (r : List Bool) :
    ((roundTrace c r).filter isRunningEv).length = r.length ∧
    ((roundTrace c r).filter isFinishedEv).length = r.length := by
  induction r generalizing c with
  | nil => simp [roundTrace]
  | cons ok rest ih =>
    simp [roundTrace, isRunningEv, isFinishedEv, (ih (c + 1)).1, (ih (c + 1)).2]

/-- Claim C4: within one request the Step events of the tool rounds form the
strict interleaving `running i, finished i, running (i+1), finished (i+1), …`
with consecutive step ids across rounds — every step's `running` →
`done`/`error` transition is emitted before the next step's `running`, there
are no overlapping steps, and in every round the number of `done`/`error`
events equals the number of `running` events. -/
theorem step_events_ordered (c0 : Nat) (rounds : List (List Bool)) :
    roundsTrace c0 rounds = ((List.enumFrom (c0 + 1) rounds.flatten).map
      (fun p => [StepEv.running p.1, StepEv.finished p.1 p.2])).flatten ∧
    (∀ c r, ((roundTrace c r).filter isRunningEv).length = r.length ∧
      ((roundTrace c r).filter isFinishedEv).length = r.length) := by
  refine ⟨?_, fun c r => roundTrace_counts c r⟩
  induction rounds generalizing c0 with
  | nil => rfl
  | cons r rs ih =>
    simp only [roundsTrace, List.flatten_cons, List.enumFrom_append,
      List.map_append, List.flatten_append, roundTrace_canonical, ih]
    have : c0 + 1 + r.length = c0 + r.length + 1 := by omega
    rw [this]

/-! ## C1: loop bounds of the provider adapters -/

theorem geminiLoop_iter_le (oracle : Nat → GResponse) (resp : GResponse)
    (ci iter : Nat) (h : iter ≤ max_iterations) :
    (geminiLoop oracle resp ci iter).2 ≤ max_iterations := by
  rw [geminiLoop]
  by_cases hlt : iter < max_iterations
  · rw [if_pos hlt]
    by_cases hc : gCalls resp = []
    · rw [if_pos hc]
      exact hlt
    · rw [if_neg hc]
      exact geminiLoop_iter_le oracle (oracle ci) (ci + 1) (iter + 1) hlt
  · rw [if_neg hlt]
    exact h
termination_by max_iterations - iter
decreasing_by omega

theorem geminiLoop_allcalls (oracle : Nat → GResponse)
    (hall : ∀ n, gCalls (oracle n) ≠ []) (k : Nat) (hk : k ≤ max_iterations) :
    geminiLoop oracle (oracle k) (k + 1) k = (oracle max_iterations, max_iterations) := by
  rw [geminiLoop]
  by_cases hlt : k < max_iterations
  · rw [if_pos hlt, if_neg (hall k)]
    exact geminiLoop_allcalls oracle hall (k + 1) hlt
  · have hke : k = max_iterations := by omega
    rw [if_neg hlt, hke]
termination_by max_iterations - k
decreasing_by omega

theorem openaiChatLoop_none (oracle : Nat → OResponse) (resp : OResponse)
    (ci : Nat) (hresp : oCalls resp ≠ []) (hall : ∀ n, oCalls (oracle n) ≠ []) :
    ∀ fuel, openaiChatLoop oracle resp ci fuel = none := by
  intro fuel
  induction fuel generalizing resp ci with
  | zero => rfl
  | succ fuel ih =>
    rw [openaiChatLoop, if_neg hresp]
    exact ih (oracle ci) (ci + 1) (hall ci)

/-- Claim C1 (amended): the 20-iteration bound holds on the Gemini adapter —
`iteration` never exceeds `max_iterations = 20`, and when the model keeps
requesting tools the loop still terminates in the DONE path, returning the
text of the last response (possibly the empty string).  The OpenAI adapter is
different: the `while True:` loop of `OpenAIService.chat` has no iteration
bound, so with a model that keeps requesting tools it is still looping after
any number of observed iterations. -/
theorem loop_bound_amended :
    (∀ oracle : Nat → GResponse, (gemini_chat oracle).2 ≤ max_iterations) ∧
    (∀ oracle : Nat → GResponse, (∀ n, gCalls (oracle n) ≠ []) →
      gemini_chat oracle = (gText (oracle max_iterations), max_iterations)) ∧
    (∀ oracle : Nat → OResponse, (∀ n, oCalls (oracle n) ≠ []) →
      ∀ fuel, openaiChatLoop oracle (oracle 0) 1 fuel = none) := by
  refine ⟨?_, ?_, ?_⟩
  · intro oracle
    exact geminiLoop_iter_le oracle (oracle 0) 1 0 (by omega)
  · intro oracle hall
    unfold gemini_chat
    rw [show (1 : Nat) = 0 + 1 from rfl, geminiLoop_allcalls oracle hall 0 (by omega)]
  · intro oracle hall fuel
    exact openaiChatLoop_none oracle (oracle 0) 1 (hall 0) hall fuel

/-- A Gemini model oracle that requests a tool on every turn. -/
def gAllToolsOracle : Nat → GResponse :=
  fun _ => some [GPart.functionCall "govinfo_search" []]

/-- An OpenAI model oracle that requests a tool on every turn. -/
def oAllToolsOracle : Nat → OResponse :=
  fun _ => alwaysToolResponse

/-- Witness for C1 (amended), on a model that requests a tool on every turn:
the Gemini loop stops after exactly 20 iterations with the last text, while
the OpenAI loop is still running. -/
theorem loop_bound_amended_witness :
    (gemini_chat gAllToolsOracle).2 ≤ max_iterations ∧
    (∀ n, gCalls (gAllToolsOracle n) ≠ []) ∧
    gemini_chat gAllToolsOracle =
      (gText (gAllToolsOracle max_iterations), max_iterations) ∧
    (∀ n, oCalls (oAllToolsOracle n) ≠ []) ∧
    openaiChatLoop oAllToolsOracle (oAllToolsOracle 0) 1 5 = none :=
  ⟨loop_bound_amended.1 gAllToolsOracle,
   fun n => by simp [gAllToolsOracle, gCalls],
   loop_bound_amended.2.1 gAllToolsOracle (fun n => by simp [gAllToolsOracle, gCalls]),
   fun n => by simp [oAllToolsOracle, oCalls, alwaysToolResponse],
   loop_bound_amended.2.2 oAllToolsOracle
     (fun n => by simp [oAllToolsOracle, oCalls, alwaysToolResponse]) 5⟩

/-- Claim C1 counterexample: on the OpenAI Responses-API adapter
(`OpenAIService.chat`), with a model that requests a tool on every turn, the
loop is still running after 21 observed iterations — there is no 20-iteration
bound on that adapter. -/
theorem openai_loop_unbounded_cex :
    openaiChatLoop (fun _ => alwaysToolResponse) ((fun _ => alwaysToolResponse) 0) 1 21 =
      none := by
  decide

/-! ## C3: source routing fail-open behaviour -/

theorem heuristic_fallback_subset (message : String) (allowed : Finset String) :
    (openaiHeuristicFallback message allowed).1 ⊆ allowed := by
  intro x hx
  unfold openaiHeuristicFallback at hx
  simp only [List.mem_toFinset] at hx
  have hx3 := List.take_subset 4 _ hx
  split at hx3
  · split at hx3
    · exact (Finset.mem_sort (α := String) (· ≤ ·)).mp (List.take_subset 2 _ hx3)
    · simp only [List.mem_filter, decide_eq_true_eq] at hx3
      exact hx3.2
  · simp only [List.mem_filter, decide_eq_true_eq] at hx3
    exact hx3.2

/-- Claim C3 (amended): with a non-empty allowed set, the Gemini router fails
open — an empty, unparsable, or failed routing answer resolves to the entire
allowed set, with a rationale recording the fallback — while on the OpenAI
router only the empty/unparsable-reply case resolves (through the caller's
`if not selected_sources`) to the entire allowed set; a *failed* routing call
instead falls back to a keyword-heuristic subset of the allowed set, not
necessarily the whole of it. -/
theorem auto_route_fail_open_amended :
    (∀ (allowed : Finset String) (m : String), allowed ≠ ∅ →
      (gemini_auto_select_sources allowed (.failure m)).1 = allowed ∧
      (gemini_auto_select_sources allowed (.failure m)).2 ≠ none) ∧
    (∀ (allowed : Finset String) (parsed : Option Dict), allowed ≠ ∅ →
      chosenFrom allowed parsed = [] →
      (gemini_auto_select_sources allowed (.reply parsed)).1 = allowed ∧
      (gemini_auto_select_sources allowed (.reply parsed)).2 ≠ none) ∧
    (∀ (message : String) (allowed : Finset String) (parsed : Option Dict),
      chosenFrom allowed parsed = [] →
      (resolveSelected allowed
        (openai_auto_select_sources message allowed (.reply parsed))).1 = allowed) ∧
    (∀ (message : String) (allowed : Finset String) (m : String),
      (openai_auto_select_sources message allowed (.failure m)).1 ⊆ allowed) := by
  refine ⟨?_, ?_, ?_, ?_⟩
  · intro allowed m hne
    unfold gemini_auto_select_sources
    rw [if_neg hne]
    by_cases h1 : allowed.card = 1
    · rw [if_pos h1]
      exact ⟨rfl, by simp⟩
    · rw [if_neg h1]
      exact ⟨rfl, by simp⟩
  · intro allowed parsed hne hempty
    unfold gemini_auto_select_sources
    rw [if_neg hne]
    by_cases h1 : allowed.card = 1
    · rw [if_pos h1]
      exact ⟨rfl, by simp⟩
    · rw [if_neg h1]
      simp only [hempty, List.take_nil, List.toFinset_nil]
      rw [if_neg (by simp)]
      exact ⟨rfl, by simp⟩
  · intro message allowed parsed hempty
    unfold openai_auto_select_sources resolveSelected
    by_cases h0 : allowed = ∅
    · rw [if_pos h0]
      simp [h0]
    · rw [if_neg h0]
      by_cases h1 : allowed.card = 1
      · rw [if_pos h1]
        simp [h0]
      · rw [if_neg h1]
        simp [hempty]
  · intro message allowed m
    unfold openai_auto_select_sources
    by_cases h0 : allowed = ∅
    · rw [if_pos h0]
      simp
    · rw [if_neg h0]
      by_cases h1 : allowed.card = 1
      · rw [if_pos h1]
      · rw [if_neg h1]
        exact heuristic_fallback_subset message allowed

/-- The allowed set `{regulations, govinfo}` used by the C3 witness. -/
def exAllowedRG : Finset String := {"regulations", "govinfo"}

/-- Witness for C3 (amended) at allowed set `{regulations, govinfo}` with an
unparsable reply and with a failed routing call, plus the OpenAI caller-side
fail-open on an unparsable reply. -/
theorem auto_route_fail_open_amended_witness :
    (exAllowedRG ≠ ∅ ∧
      (gemini_auto_select_sources exAllowedRG (.failure "boom")).1 = exAllowedRG ∧
      (gemini_auto_select_sources exAllowedRG (.failure "boom")).2 ≠ none) ∧
    (chosenFrom exAllowedRG none = [] ∧
      (gemini_auto_select_sources exAllowedRG (.reply none)).1 = exAllowedRG ∧
      (gemini_auto_select_sources exAllowedRG (.reply none)).2 ≠ none) ∧
    (resolveSelected exAllowedRG
      (openai_auto_select_sources "q" exAllowedRG (.reply none))).1 = exAllowedRG ∧
    (openai_auto_select_sources "q" exAllowedRG (.failure "boom")).1 ⊆ exAllowedRG :=
  ⟨⟨by decide, (auto_route_fail_open_amended.1 exAllowedRG "boom" (by decide)).1,
      (auto_route_fail_open_amended.1 exAllowedRG "boom" (by decide)).2⟩,
   ⟨rfl, (auto_route_fail_open_amended.2.1 exAllowedRG none (by decide) rfl).1,
      (auto_route_fail_open_amended.2.1 exAllowedRG none (by decide) rfl).2⟩,
   auto_route_fail_open_amended.2.2.1 "q" exAllowedRG none rfl,
   auto_route_fail_open_amended.2.2.2 "q" exAllowedRG "boom"⟩

/-- Claim C3 counterexample: with allowed sources
`{regulations, govinfo, congress}` and a routing model call that *fails* (the
`except` path), the OpenAI adapter resolves to the heuristic pick
`{regulations, govinfo}` with rationale "Heuristic fallback." — not to the
entire allowed set — so the claim's fail-open-to-the-whole-set guarantee does
not hold on the OpenAI adapter. -/
theorem openai_router_failure_not_fail_open_cex :
    (resolveSelected {"regulations", "govinfo", "congress"}
      (openai_auto_select_sources "hello" {"regulations", "govinfo", "congress"}
        (.failure "connection error"))).1 ≠
      ({"regulations", "govinfo", "congress"} : Finset String) := by
  decide

/-! ## C6: text truncation at the character budget -/

theorem rlastIdxAux_bounds (c : Char) (l : List Char) (n i : Nat)
    (h : rlastIdxAux c l n = some i) : n ≤ i ∧ i < n + l.length := by
  induction l generalizing n with
  | nil => exact absurd h (by simp [rlastIdxAux])
  | cons x xs ih =>
    rw [rlastIdxAux] at h
    cases hr : rlastIdxAux c xs (n + 1) with
    | some j =>
      rw [hr] at h
      cases h
      have hj := ih (n + 1) hr
      simp only [List.length_cons]
      omega
    | none =>
      rw [hr] at h
      by_cases hx : x = c
      · rw [if_pos hx] at h
        cases h
        simp only [List.length_cons]
        omega
      · rw [if_neg hx] at h
        cases h

theorem rfindIdx_lt (s : String) (c : Char) (i : Nat) (h : rfindIdx s c = some i) :
    i < s.length := by
  have hb := (rlastIdxAux_bounds c s.toList 0 i h).2
  have hlen : s.toList.length = s.length := rfl
  omega

theorem str_append_right_ne (a : String) {x y : String} (h : x ≠ y) :
    a ++ x ≠ a ++ y := by
  intro he
  apply h
  have hd := congrArg String.data he
  simp only [String.data_append] at hd
  exact String.ext (List.append_cancel_left hd)

theorem str_ne_append_of_ne_empty (f x : String) (hx : x ≠ "") : f ≠ f ++ x := by
  intro he
  apply hx
  have hd := congrArg String.data he
  simp only [String.data_append] at hd
  have hlen := congrArg List.length hd
  simp only [List.length_append] at hlen
  have : x.data = [] := List.length_eq_zero.mp (by omega)
  exact String.ext (by simpa using this)

theorem truncate_for_model_short (s : String) (h : s.length ≤ MAX_TOOL_TEXT_CHARS) :
    truncate_for_model s = (s, false) := by
  unfold truncate_for_model
  rw [if_pos (Or.inr h)]

theorem truncate_for_model_long (s : String) (h : MAX_TOOL_TEXT_CHARS < s.length) :
    ∃ k, k ≤ MAX_TOOL_TEXT_CHARS ∧
      truncate_for_model s = (s.take k ++ TRUNCATION_NOTICE, true) ∧
      (∀ i, rfindIdx (s.take MAX_TOOL_TEXT_CHARS) '.' = some i →
        (MAX_TOOL_TEXT_CHARS * 8 / 10 < i → k = i + 1) ∧
        (i ≤ MAX_TOOL_TEXT_CHARS * 8 / 10 → k = MAX_TOOL_TEXT_CHARS)) ∧
      (rfindIdx (s.take MAX_TOOL_TEXT_CHARS) '.' = none → k = MAX_TOOL_TEXT_CHARS) := by
  have hne : s ≠ "" := by
    intro he
    rw [he] at h
    have h0 : ("" : String).length = 0 := rfl
    rw [h0] at h
    exact absurd h (by simp [MAX_TOOL_TEXT_CHARS])
  have hcond : ¬ (s = "" ∨ s.length ≤ MAX_TOOL_TEXT_CHARS) := by
    push_neg
    exact ⟨hne, by omega⟩
  cases hr : rfindIdx (s.take MAX_TOOL_TEXT_CHARS) '.' with
  | none =>
    refine ⟨MAX_TOOL_TEXT_CHARS, le_refl _, ?_, ?_, fun _ => rfl⟩
    · unfold truncate_for_model
      rw [if_neg hcond]
      simp only [hr]
    · intro i hi
      cases hi
  | some i =>
    have hi_lt : i < MAX_TOOL_TEXT_CHARS := by
      have h1 := rfindIdx_lt _ '.' i hr
      have h2 : (s.take MAX_TOOL_TEXT_CHARS).length = MAX_TOOL_TEXT_CHARS := by
        rw [String.take_eq]
        simp only [String.length_mk, List.length_take]
        have h3 : s.length = s.data.length := rfl
        rw [h3] at h
        omega
      omega
    by_cases hc : MAX_TOOL_TEXT_CHARS * 8 / 10 < i
    · refine ⟨i + 1, by omega, ?_, ?_, ?_⟩
      · unfold truncate_for_model
        rw [if_neg hcond]
        simp only [hr]
        rw [if_pos hc]
        have hmin : min (i + 1) MAX_TOOL_TEXT_CHARS = i + 1 := by omega
        rw [String.take_eq s MAX_TOOL_TEXT_CHARS, String.take_eq, String.take_eq]
        simp only [String.data_take, List.take_take, hmin]
      · intro j hj
        cases hj
        exact ⟨fun _ => rfl, fun hle => by omega⟩
      · intro hnone
        cases hnone
    · refine ⟨MAX_TOOL_TEXT_CHARS, le_refl _, ?_, ?_, ?_⟩
      · unfold truncate_for_model
        rw [if_neg hcond]
        simp only [hr]
        rw [if_neg hc]
      · intro j hj
        cases hj
        exact ⟨fun hlt => absurd hlt hc, fun _ => rfl⟩
      · intro hnone
        cases hnone

/-- Claim C6: for every tool-result text field handed to a model (`text` or
`full_text`, the per-field block `truncateField` that both services'
`_prepare_tool_output` run): a value within the 20,000-character budget is
passed through unchanged with no truncated flag; a longer value becomes
`s.take k` (a prefix of the original of at most the budget, with `k` ending at
the last `.` of the budget window whenever that boundary lies past 80% of the
budget) followed by the fixed truncation notice, annotated with the original
character length (`<field>_length`) and the `<field>_truncated = True` flag.
The final conjunct records that `GeminiService._prepare_tool_output` is
exactly this block applied to `full_text` and then `text` (after dropping
`images`); `OpenAIService._prepare_tool_output` does the same before its
image handling. -/
theorem tool_text_truncated_at_budget (safe : Dict) (field : String) (s : String)
    (hget : dget safe field = some (.jstr s))
    (hflag : dget safe (field ++ "_truncated") = none) :
    (s.length ≤ MAX_TOOL_TEXT_CHARS →
      truncateField safe field = safe ∧
      dget (truncateField safe field) field = some (.jstr s) ∧
      dget (truncateField safe field) (field ++ "_truncated") = none) ∧
    (MAX_TOOL_TEXT_CHARS < s.length →
      ∃ k, k ≤ MAX_TOOL_TEXT_CHARS ∧
        dget (truncateField safe field) field =
          some (.jstr (s.take k ++ TRUNCATION_NOTICE)) ∧
        dget (truncateField safe field) (field ++ "_length") = some (.jnum s.length) ∧
        dget (truncateField safe field) (field ++ "_truncated") = some (.jbool true) ∧
        (∀ i, rfindIdx (s.take MAX_TOOL_TEXT_CHARS) '.' = some i →
          (MAX_TOOL_TEXT_CHARS * 8 / 10 < i → k = i + 1) ∧
          (i ≤ MAX_TOOL_TEXT_CHARS * 8 / 10 → k = MAX_TOOL_TEXT_CHARS)) ∧
        (rfindIdx (s.take MAX_TOOL_TEXT_CHARS) '.' = none → k = MAX_TOOL_TEXT_CHARS)) ∧
    (∀ result : Dict, gemini_prepare_tool_output result =
      truncateField (truncateField (dremove result "images") "full_text") "text") := by
  have hne_tr : field ≠ field ++ "_truncated" :=
    str_ne_append_of_ne_empty field "_truncated" (by decide)
  have hne_len : field ≠ field ++ "_length" :=
    str_ne_append_of_ne_empty field "_length" (by decide)
  have hne_len_tr : field ++ "_length" ≠ field ++ "_truncated" :=
    str_append_right_ne field (by decide)
  refine ⟨?_, ?_, fun _ => rfl⟩
  · intro hlen
    have hsame : truncateField safe field = safe := by
      unfold truncateField
      rw [hget]
      simp only [jstrOrEmpty]
      by_cases hs : s = ""
      · simp [hs]
      · simp [hs, truncate_for_model_short s hlen]
    rw [hsame]
    exact ⟨rfl, hget, hflag⟩
  · intro hlen
    have hs : s ≠ "" := by
      intro he
      rw [he] at hlen
      have h0 : ("" : String).length = 0 := rfl
      rw [h0] at hlen
      exact absurd hlen (by simp [MAX_TOOL_TEXT_CHARS])
    obtain ⟨k, hk, heq, hsome, hnone⟩ := truncate_for_model_long s hlen
    have hTF : truncateField safe field =
        dset (dset (dset safe field (.jstr (s.take k ++ TRUNCATION_NOTICE)))
            (field ++ "_length") (.jnum s.length))
          (field ++ "_truncated") (.jbool true) := by
      unfold truncateField
      rw [hget]
      simp only [jstrOrEmpty]
      rw [if_pos hs]
      simp [heq]
    refine ⟨k, hk, ?_, ?_, ?_, hsome, hnone⟩
    · rw [hTF, dget_dset_ne _ _ _ _ hne_tr, dget_dset_ne _ _ _ _ hne_len,
        dget_dset_self]
    · rw [hTF, dget_dset_ne _ _ _ _ hne_len_tr, dget_dset_self]
    · rw [hTF, dget_dset_self]

/-- A 20,001-character text with no sentence boundary, and a short one. -/
def longToolText : String := String.mk (List.replicate 20001 'a')

/-- Witness for C6 at a dict carrying a 20,001-character `text` field (and, via
the theorem's first conjunct, the pass-through direction at the same input). -/
theorem tool_text_truncated_at_budget_witness :
    dget [("text", .jstr longToolText)] "text" = some (.jstr longToolText) ∧
    dget [("text", .jstr longToolText)] "text_truncated" = none ∧
    ((longToolText.length ≤ MAX_TOOL_TEXT_CHARS →
      truncateField [("text", .jstr longToolText)] "text" = [("text", .jstr longToolText)] ∧
      dget (truncateField [("text", .jstr longToolText)] "text") "text" =
        some (.jstr longToolText) ∧
      dget (truncateField [("text", .jstr longToolText)] "text") "text_truncated" = none) ∧
    (MAX_TOOL_TEXT_CHARS < longToolText.length →
      ∃ k, k ≤ MAX_TOOL_TEXT_CHARS ∧
        dget (truncateField [("text", .jstr longToolText)] "text") "text" =
          some (.jstr (longToolText.take k ++ TRUNCATION_NOTICE)) ∧
        dget (truncateField [("text", .jstr longToolText)] "text") "text_length" =
          some (.jnum longToolText.length) ∧
        dget (truncateField [("text", .jstr longToolText)] "text") "text_truncated" =
          some (.jbool true) ∧
        (∀ i, rfindIdx (longToolText.take MAX_TOOL_TEXT_CHARS) '.' = some i →
          (MAX_TOOL_TEXT_CHARS * 8 / 10 < i → k = i + 1) ∧
          (i ≤ MAX_TOOL_TEXT_CHARS * 8 / 10 → k = MAX_TOOL_TEXT_CHARS)) ∧
        (rfindIdx (longToolText.take MAX_TOOL_TEXT_CHARS) '.' = none →
          k = MAX_TOOL_TEXT_CHARS)) ∧
    (∀ result : Dict, gemini_prepare_tool_output result =
      truncateField (truncateField (dremove result "images") "full_text") "text")) :=
  ⟨rfl, rfl,
    tool_text_truncated_at_budget [("text", .jstr longToolText)] "text" longToolText
      rfl rfl⟩

/-! ## C7: image caps in `_prepare_tool_output` -/

theorem processImages_conservation (imgs : List JVal) (st : ImgState) :
    (processImages imgs st).meta.length + (processImages imgs st).skipped =
      st.meta.length + st.skipped + imgs.length := by
  induction imgs generalizing st with
  | nil => simp [processImages]
  | cons img rest ih =>
    simp only [processImages]
    by_cases h1 : MAX_TOOL_IMAGES ≤ st.inputs.length
    · rw [if_pos h1, ih]
      simp only [List.length_cons]
      omega
    · rw [if_neg h1]
      by_cases h2 : byteSizeOf (asObj img) ≠ 0 ∧ MAX_IMAGE_BYTES < byteSizeOf (asObj img)
      · rw [if_pos h2, ih]
        simp only [List.length_cons]
        omega
      · rw [if_neg h2]
        by_cases h3 : byteSizeOf (asObj img) ≠ 0 ∧
            MAX_IMAGE_TOTAL_BYTES < st.total + byteSizeOf (asObj img)
        · rw [if_pos h3, ih]
          simp only [List.length_cons]
          omega
        · rw [if_neg h3]
          by_cases h4 : truthy (dget (asObj img) "data_base64")
          · rw [if_pos h4, ih]
            simp only [List.length_append, List.length_cons, List.length_nil]
            omega
          · rw [if_neg h4, ih]
            simp only [List.length_append, List.length_cons, List.length_nil]
            omega

theorem processImages_total_le (imgs : List JVal) (st : ImgState)
    (h : st.total ≤ MAX_IMAGE_TOTAL_BYTES) :
    (processImages imgs st).total ≤ MAX_IMAGE_TOTAL_BYTES := by
  induction imgs generalizing st with
  | nil => simpa [processImages] using h
  | cons img rest ih =>
    simp only [processImages]
    by_cases h1 : MAX_TOOL_IMAGES ≤ st.inputs.length
    · rw [if_pos h1]
      exact ih _ h
    · rw [if_neg h1]
      by_cases h2 : byteSizeOf (asObj img) ≠ 0 ∧ MAX_IMAGE_BYTES < byteSizeOf (asObj img)
      · rw [if_pos h2]
        exact ih _ h
      · rw [if_neg h2]
        by_cases h3 : byteSizeOf (asObj img) ≠ 0 ∧
            MAX_IMAGE_TOTAL_BYTES < st.total + byteSizeOf (asObj img)
        · rw [if_pos h3]
          exact ih _ h
        · rw [if_neg h3]
          by_cases h4 : truthy (dget (asObj img) "data_base64")
          · rw [if_pos h4]
            apply ih
            by_cases hb : byteSizeOf (asObj img) = 0
            · simp only [hb, add_zero]
              exact h
            · push_neg at h3
              have := h3 hb
              simp only
              omega
          · rw [if_neg h4]
            exact ih _ h

theorem processImages_len_le (imgs : List JVal) (st : ImgState)
    (h : st.inputs.length ≤ MAX_TOOL_IMAGES) :
    (processImages imgs st).inputs.length ≤ MAX_TOOL_IMAGES := by
  induction imgs generalizing st with
  | nil => simpa [processImages] using h
  | cons img rest ih =>
    simp only [processImages]
    by_cases h1 : MAX_TOOL_IMAGES ≤ st.inputs.length
    · rw [if_pos h1]
      exact ih _ h
    · rw [if_neg h1]
      by_cases h2 : byteSizeOf (asObj img) ≠ 0 ∧ MAX_IMAGE_BYTES < byteSizeOf (asObj img)
      · rw [if_pos h2]
        exact ih _ h
      · rw [if_neg h2]
        by_cases h3 : byteSizeOf (asObj img) ≠ 0 ∧
            MAX_IMAGE_TOTAL_BYTES < st.total + byteSizeOf (asObj img)
        · rw [if_pos h3]
          exact ih _ h
        · rw [if_neg h3]
          by_cases h4 : truthy (dget (asObj img) "data_base64")
          · rw [if_pos h4]
            apply ih
            simp only [List.length_append, List.length_singleton]
            omega
          · rw [if_neg h4]
            exact ih _ h

theorem processImages_kept (imgs : List JVal) (st : ImgState) :
    ∃ kept : List Dict,
      (processImages imgs st).inputs = st.inputs ++ kept.map renderImageInput ∧
      (∀ d ∈ kept, byteSizeOf d ≤ MAX_IMAGE_BYTES) ∧
      (processImages imgs st).total = st.total + (kept.map byteSizeOf).sum := by
  induction imgs generalizing st with
  | nil => exact ⟨[], by simp [processImages]⟩
  | cons img rest ih =>
    simp only [processImages]
    by_cases h1 : MAX_TOOL_IMAGES ≤ st.inputs.length
    · rw [if_pos h1]
      exact ih _
    · rw [if_neg h1]
      by_cases h2 : byteSizeOf (asObj img) ≠ 0 ∧ MAX_IMAGE_BYTES < byteSizeOf (asObj img)
      · rw [if_pos h2]
        exact ih _
      · rw [if_neg h2]
        by_cases h3 : byteSizeOf (asObj img) ≠ 0 ∧
            MAX_IMAGE_TOTAL_BYTES < st.total + byteSizeOf (asObj img)
        · rw [if_pos h3]
          exact ih _
        · rw [if_neg h3]
          have hble : byteSizeOf (asObj img) ≤ MAX_IMAGE_BYTES := by
            by_cases hb : byteSizeOf (asObj img) = 0
            · rw [hb]
              simp [MAX_IMAGE_BYTES]
            · push_neg at h2
              have := h2 hb
              omega
          by_cases h4 : truthy (dget (asObj img) "data_base64")
          · rw [if_pos h4]
            obtain ⟨kept, hin, hall, htot⟩ := ih
              ({ st with
                 inputs := st.inputs ++ [renderImageInput (asObj img)]
                 total := st.total + byteSizeOf (asObj img)
                 meta := st.meta ++ [renderImageMeta (asObj img)] })
            refine ⟨asObj img :: kept, ?_, ?_, ?_⟩
            · rw [hin]
              simp
            · intro d hd
              rcases List.mem_cons.mp hd with h | h
              · rw [h]
                exact hble
              · exact hall d h
            · rw [htot]
              simp only [List.map_cons, List.sum_cons]
              omega
          · rw [if_neg h4]
            obtain ⟨kept, hin, hall, htot⟩ := ih
              { st with meta := st.meta ++ [renderImageMeta (asObj img)] }
            exact ⟨kept, hin, hall, htot⟩

theorem dget_renderImageInput_type (d : Dict) :
    dget (renderImageInput d) "type" = some (.jstr "input_image") := rfl

theorem msgImageCount_build (t : String) (r : Dict) (inputs meta : List Dict)
    (hall : ∀ m ∈ inputs, dget m "type" = some (.jstr "input_image")) :
    msgImageCount (buildImageMessage t r inputs meta) = inputs.length := by
  unfold buildImageMessage
  by_cases hnil : inputs = []
  · rw [if_pos hnil, hnil]
    rfl
  · rw [if_neg hnil]
    simp only [msgImageCount]
    have hc : dget [("type", JVal.jstr "message"), ("role", JVal.jstr "user"),
        ("content", JVal.jarr ((([("type", JVal.jstr "input_text"),
          ("text", JVal.jstr (String.intercalate "\n"
            (("Images extracted from " ++ sourceLabel t r ++ ":") ::
              meta.map imageMetaLine)))] : Dict) :: inputs).map .jobj))] "content" =
        some (JVal.jarr ((([("type", JVal.jstr "input_text"),
          ("text", JVal.jstr (String.intercalate "\n"
            (("Images extracted from " ++ sourceLabel t r ++ ":") ::
              meta.map imageMetaLine)))] : Dict) :: inputs).map .jobj)) := by
      simp [dget]
    rw [hc]
    simp only [jarrOrNil]
    rw [List.filter_map]
    simp only [List.length_map]
    rw [List.filter_cons]
    have hhd : (dget (asObj (JVal.jobj [("type", JVal.jstr "input_text"),
        ("text", JVal.jstr (String.intercalate "\n"
          (("Images extracted from " ++ sourceLabel t r ++ ":") ::
            meta.map imageMetaLine)))])) "type" = some (.jstr "input_text")) := rfl
    rw [List.filter_eq_self.mpr]
    · simp [hhd]
    · intro a ha
      simp only [Function.comp_apply] at *
      have := hall a ha
      simp [asObj, this]

/-- Claim C7: for every tool result whose `images` field is a list, the
prepared model message contains at most 2 (`MAX_TOOL_IMAGES`) images; the
accepted images each carry a declared `byte_size` within the 200,000-byte
per-image cap and sum to at most the 250,000-byte per-call cap; every image is
either represented in the metadata or counted in `skipped_images`; and a
non-zero skip count is always reported to the model as
`images_skipped_for_model` — no image is silently dropped without a count. -/
theorem image_caps_enforced (tool_name : String) (result : Dict) (imgs : List JVal)
    (himg : dget result "images" = some (.jarr imgs)) :
    msgImageCount (prepare_tool_output tool_name result).2 ≤ MAX_TOOL_IMAGES ∧
    (∃ kept : List Dict,
      (processImages imgs ⟨[], [], 0, 0⟩).inputs = kept.map renderImageInput ∧
      (∀ d ∈ kept, byteSizeOf d ≤ MAX_IMAGE_BYTES) ∧
      kept.length ≤ MAX_TOOL_IMAGES ∧
      (kept.map byteSizeOf).sum ≤ MAX_IMAGE_TOTAL_BYTES) ∧
    (processImages imgs ⟨[], [], 0, 0⟩).meta.length +
      (processImages imgs ⟨[], [], 0, 0⟩).skipped = imgs.length ∧
    (0 < (processImages imgs ⟨[], [], 0, 0⟩).skipped →
      dget (prepare_tool_output tool_name result).1 "images_skipped_for_model" =
        some (.jnum (processImages imgs ⟨[], [], 0, 0⟩).skipped)) := by
  obtain ⟨kept, hin, hall, htot⟩ := processImages_kept imgs ⟨[], [], 0, 0⟩
  have hin' : (processImages imgs ⟨[], [], 0, 0⟩).inputs = kept.map renderImageInput := by
    simpa using hin
  have hkl : kept.length ≤ MAX_TOOL_IMAGES := by
    have := processImages_len_le imgs ⟨[], [], 0, 0⟩ (by simp [MAX_TOOL_IMAGES])
    rw [hin'] at this
    simpa using this
  have hks : (kept.map byteSizeOf).sum ≤ MAX_IMAGE_TOTAL_BYTES := by
    have := processImages_total_le imgs ⟨[], [], 0, 0⟩ (by simp [MAX_IMAGE_TOTAL_BYTES])
    rw [htot] at this
    simpa using this
  have hcons := processImages_conservation imgs ⟨[], [], 0, 0⟩
  by_cases hnil : imgs = []
  · subst hnil
    refine ⟨?_, ⟨kept, hin', hall, hkl, hks⟩, by simpa using hcons, ?_⟩
    · have : (prepare_tool_output tool_name result).2 = none := by
        unfold prepare_tool_output
        rw [himg, if_pos (by simp [truthy])]
      rw [this]
      simp [msgImageCount, MAX_TOOL_IMAGES]
    · intro hsk
      have h0 : (processImages ([] : List JVal) ⟨[], [], 0, 0⟩).skipped = 0 := rfl
      rw [h0] at hsk
      omega
  · have htr : truthy (dget result "images") = true := by
      rw [himg]
      simpa [truthy] using hnil
    have hsnd : (prepare_tool_output tool_name result).2 =
        buildImageMessage tool_name result
          (processImages imgs ⟨[], [], 0, 0⟩).inputs
          (processImages imgs ⟨[], [], 0, 0⟩).meta := by
      unfold prepare_tool_output
      rw [if_neg (by simp [htr]), himg]
      simp only [jarrOrNil]
    refine ⟨?_, ⟨kept, hin', hall, hkl, hks⟩, by simpa using hcons, ?_⟩
    · rw [hsnd, hin']
      rw [msgImageCount_build]
      · simpa using hkl
      · intro m hm
        obtain ⟨d, _, hd⟩ := List.mem_map.mp hm
        rw [← hd]
        exact dget_renderImageInput_type d
    · intro hsk
      have hfst : (prepare_tool_output tool_name result).1 =
          (let safe := truncateField (truncateField (dremove result "images")
            "full_text") "text"
           let fin := processImages imgs ⟨[], [], 0, 0⟩
           if fin.meta ≠ [] then
             let safe := dset safe "image_count" (.jnum fin.meta.length)
             let safe := dset safe "image_metadata" (.jarr (fin.meta.map .jobj))
             if 0 < fin.skipped then
               dset safe "images_skipped_for_model" (.jnum fin.skipped)
             else safe
           else if 0 < fin.skipped then
             dset (dset safe "image_count" (.jnum 0))
               "images_skipped_for_model" (.jnum fin.skipped)
           else safe) := by
        unfold prepare_tool_output
        rw [if_neg (by simp [htr]), himg]
        simp only [jarrOrNil]
      rw [hfst]
      simp only
      by_cases hm : (processImages imgs ⟨[], [], 0, 0⟩).meta = []
      · rw [if_neg (by simp [hm]), if_pos hsk]
        exact dget_dset_self _ _ _
      · rw [if_pos hm, if_pos hsk]
        exact dget_dset_self _ _ _

/-- Four images: two acceptable, one over the per-image byte cap, one pushed
out by the two-image cap. -/
def exImages : List JVal :=
  [.jobj [("byte_size", .jnum 1000), ("data_base64", .jstr "AAA"), ("id", .jstr "img1")],
   .jobj [("byte_size", .jnum 300000), ("data_base64", .jstr "BBB"), ("id", .jstr "img2")],
   .jobj [("byte_size", .jnum 2000), ("data_base64", .jstr "CCC"), ("id", .jstr "img3")],
   .jobj [("byte_size", .jnum 3000), ("data_base64", .jstr "DDD"), ("id", .jstr "img4")]]

def exImgResult : Dict :=
  [("url", .jstr "https://example.gov/doc.pdf"), ("images", .jarr exImages)]

/-- Witness for C7 at a result carrying four images (two survive the caps,
two are rejected and counted). -/
theorem image_caps_enforced_witness :
    dget exImgResult "images" = some (.jarr exImages) ∧
    (msgImageCount (prepare_tool_output "fetch_url_content" exImgResult).2 ≤ MAX_TOOL_IMAGES ∧
    (∃ kept : List Dict,
      (processImages exImages ⟨[], [], 0, 0⟩).inputs = kept.map renderImageInput ∧
      (∀ d ∈ kept, byteSizeOf d ≤ MAX_IMAGE_BYTES) ∧
      kept.length ≤ MAX_TOOL_IMAGES ∧
      (kept.map byteSizeOf).sum ≤ MAX_IMAGE_TOTAL_BYTES) ∧
    (processImages exImages ⟨[], [], 0, 0⟩).meta.length +
      (processImages exImages ⟨[], [], 0, 0⟩).skipped = exImages.length ∧
    (0 < (processImages exImages ⟨[], [], 0, 0⟩).skipped →
      dget (prepare_tool_output "fetch_url_content" exImgResult).1 "images_skipped_for_model" =
        some (.jnum (processImages exImages ⟨[], [], 0, 0⟩).skipped))) :=
  ⟨rfl, image_caps_enforced "fetch_url_content" exImgResult exImages rfl⟩

/-! ## C8: ingest idempotence -/

theorem dget_eq_none_iff (d : Dict) (k : String) :
    dget d k = none ↔ ∀ p ∈ d, p.1 ≠ k := by
  induction d with
  | nil => simp [dget]
  | cons q d ih =>
    by_cases hq : q.1 = k
    · simp [dget, hq]
    · simp [dget, hq, ih]

theorem storeGet_storeSet_self (s : MemStore) (k : String × String) (v : List MemRow) :
    storeGet (storeSet s k v) k = some v := by
  induction s with
  | nil => simp [storeSet, storeGet]
  | cons p s ih =>
    by_cases hp : p.1 = k
    · simp [storeSet, storeGet, hp]
    · simp [storeSet, storeGet, hp, ih]

theorem getOrCreate_of_some (s : MemStore) (k : String × String) (v : List MemRow)
    (h : storeGet s k = some v) : getOrCreate s k = s := by
  unfold getOrCreate
  rw [h]

theorem storeGet_append_single (s : MemStore) (k : String × String) (v : List MemRow)
    (h : storeGet s k = none) : storeGet (s ++ [(k, v)]) k = some v := by
  induction s with
  | nil => simp [storeGet]
  | cons p s ih =>
    by_cases hp : p.1 = k
    · rw [storeGet, if_pos hp] at h
      cases h
    · rw [storeGet, if_neg hp] at h
      simp only [List.cons_append, storeGet, if_neg hp]
      exact ih h

theorem storeGet_getOrCreate_isSome (s : MemStore) (k : String × String) :
    (storeGet (getOrCreate s k) k).isSome := by
  unfold getOrCreate
  cases hg : storeGet s k with
  | some v => simp [hg]
  | none => simp [storeGet_append_single s k [] hg]

theorem mem_upsertOne_self (rows : List MemRow) (it : MemRow) :
    it ∈ upsertOne rows it := by
  unfold upsertOne
  split
  · next hany =>
    simp only [List.any_eq_true, decide_eq_true_eq] at hany
    obtain ⟨x, hx, hid⟩ := hany
    exact List.mem_map.mpr ⟨x, hx, by simp [hid]⟩
  · exact List.mem_append_right _ (List.mem_singleton.mpr rfl)

theorem exists_mem_upsertRows (rows items : List MemRow) (h : items ≠ []) :
    ∃ it ∈ items, it ∈ upsertRows rows items := by
  induction items generalizing rows with
  | nil => cases h rfl
  | cons it rest ih =>
    by_cases hr : rest = []
    · subst hr
      refine ⟨it, List.mem_cons_self _ _, ?_⟩
      show it ∈ upsertRows rows [it]
      unfold upsertRows
      simp only [List.foldl_cons, List.foldl_nil]
      exact mem_upsertOne_self rows it
    · obtain ⟨x, hx, hmem⟩ := ih (upsertOne rows it) hr
      refine ⟨x, List.mem_cons_of_mem _ hx, ?_⟩
      show x ∈ upsertRows rows (it :: rest)
      unfold upsertRows
      simp only [List.foldl_cons]
      exact hmem

theorem mem_buildRows_meta (ids chunks : List String) (metas : List Dict)
    (embs : List (List Int)) (r : MemRow) (h : r ∈ buildRows ids chunks metas embs) :
    r.meta ∈ metas := by
  unfold buildRows at h
  obtain ⟨p, hp, hr⟩ := List.mem_map.mp h
  have h2 := (List.of_mem_zip hp).2
  have h3 := (List.of_mem_zip h2).2
  have h4 := (List.of_mem_zip h3).1
  rw [← hr]
  exact h4

theorem buildRows_ne_nil (ids chunks : List String) (metas : List Dict)
    (embs : List (List Int)) (h1 : ids ≠ []) (h2 : chunks ≠ [])
    (h3 : metas ≠ []) (h4 : embs ≠ []) :
    buildRows ids chunks metas embs ≠ [] := by
  intro hc
  have hlen := congrArg List.length hc
  simp only [buildRows, List.length_map, List.length_zip, List.length_nil] at hlen
  have l1 : 0 < ids.length := List.length_pos.mpr h1
  have l2 : 0 < chunks.length := List.length_pos.mpr h2
  have l3 : 0 < metas.length := List.length_pos.mpr h3
  have l4 : 0 < embs.length := List.length_pos.mpr h4
  omega

theorem embedBatches_success (f : List String → List (List Int))
    (batches : List (List String)) (hne : ∀ b ∈ batches, b ≠ [])
    (hf : ∀ ts, ts ≠ [] → f ts ≠ []) :
    ∃ es n, embedBatches f batches = (some es, n) ∧ (batches ≠ [] → es ≠ []) := by
  induction batches with
  | nil => exact ⟨[], 0, rfl, fun h => absurd rfl h⟩
  | cons b rest ih =>
    have hb : f b ≠ [] := hf b (hne b (List.mem_cons_self _ _))
    obtain ⟨es, n, hEB, _⟩ := ih (fun x hx => hne x (List.mem_cons_of_mem _ hx))
    refine ⟨f b ++ es, n + 1, ?_, fun _ => by simp [hb]⟩
    rw [embedBatches, if_neg hb, hEB]

theorem mem_batchList_ne_nil_aux (n : Nat) :
    ∀ l : List String, l.length ≤ n → ∀ b ∈ batchList l, b ≠ [] := by
  induction n with
  | zero =>
    intro l hl b hb
    have hz : l = [] := List.length_eq_zero.mp (by omega)
    subst hz
    rw [batchList] at hb
    simp at hb
  | succ n ih =>
    intro l hl b hb
    rw [batchList] at hb
    split at hb
    · cases hb
    · next hne =>
      rcases List.mem_cons.mp hb with h1 | h1
      · subst h1
        intro he
        rcases List.take_eq_nil_iff.mp he with h2 | h2
        · cases h2
        · exact hne h2
      · have hpos : 0 < l.length := List.length_pos.mpr hne
        exact ih (l.drop 32) (by simp only [List.length_drop]; omega) b h1

theorem mem_batchList_ne_nil (l : List String) (b : List String)
    (h : b ∈ batchList l) : b ≠ [] :=
  mem_batchList_ne_nil_aux l.length l (le_refl _) b h

theorem batchList_ne_nil (l : List String) (h : l ≠ []) : batchList l ≠ [] := by
  rw [batchList, if_neg h]
  simp

theorem chunkGo_ne_nil (text : List Char) (cs ov : Nat) (hov : ov < cs)
    (maxc start : Nat) (acc : List String)
    (h : acc ≠ [] ∨ start < text.length) :
    chunkGo text cs ov hov maxc start acc ≠ [] := by
  rw [chunkGo]
  split
  · split
    · split
      · simp
      · exact chunkGo_ne_nil text cs ov hov maxc _ _ (Or.inl (by simp))
    · simp
  · next hge =>
    rcases h with h1 | h1
    · exact h1
    · exact absurd h1 hge
termination_by text.length - start
decreasing_by omega

theorem chunk_text_ne_nil (st : RagSettings) (text : String)
    (h : (normalize_text text).toList ≠ []) : chunk_text st text ≠ [] := by
  unfold chunk_text
  rw [if_neg (by simpa [List.isEmpty_iff] using h)]
  apply chunkGo_ne_nil
  right
  have := List.length_pos.mpr h
  simpa using this

/-- The metadata attached to every upserted chunk keeps the `session_id`,
`doc_key` and `doc_hash` written by `add_document` whenever the caller
metadata does not itself bind those keys. -/
theorem chunk_meta_fields (session_id doc_key doc_hash : String) (metadata : Dict)
    (hm1 : dget metadata "session_id" = none)
    (hm2 : dget metadata "doc_key" = none)
    (hm3 : dget metadata "doc_hash" = none)
    (i total : Int) :
    dget (dset (dset (dictUpdate [("session_id", .jstr session_id),
        ("doc_key", .jstr doc_key), ("doc_hash", .jstr doc_hash)] metadata)
        "chunk_index" (.jnum i)) "total_chunks" (.jnum total)) "session_id" =
      some (.jstr session_id) ∧
    dget (dset (dset (dictUpdate [("session_id", .jstr session_id),
        ("doc_key", .jstr doc_key), ("doc_hash", .jstr doc_hash)] metadata)
        "chunk_index" (.jnum i)) "total_chunks" (.jnum total)) "doc_key" =
      some (.jstr doc_key) ∧
    dget (dset (dset (dictUpdate [("session_id", .jstr session_id),
        ("doc_key", .jstr doc_key), ("doc_hash", .jstr doc_hash)] metadata)
        "chunk_index" (.jnum i)) "total_chunks" (.jnum total)) "doc_hash" =
      some (.jstr doc_hash) := by
  refine ⟨?_, ?_, ?_⟩
  · rw [dget_dset_ne _ _ _ _ (by decide), dget_dset_ne _ _ _ _ (by decide),
      dget_dictUpdate_not_mem _ _ _ ((dget_eq_none_iff _ _).mp hm1)]
    rfl
  · rw [dget_dset_ne _ _ _ _ (by decide), dget_dset_ne _ _ _ _ (by decide),
      dget_dictUpdate_not_mem _ _ _ ((dget_eq_none_iff _ _).mp hm2)]
    rfl
  · rw [dget_dset_ne _ _ _ _ (by decide), dget_dset_ne _ _ _ _ (by decide),
      dget_dictUpdate_not_mem _ _ _ ((dget_eq_none_iff _ _).mp hm3)]
    rfl

/-- When a chunk set for (session, doc_key, content hash) already exists in
the collection, `add_document` returns without embedding or writing anything:
the store is unchanged (up to the data-free collection creation) and zero
`_embed_texts` calls are made. -/
theorem add_document_of_exists (st : RagSettings) (sha256 sha1 : String → String)
    (embedTexts : List String → List (List Int)) (s : MemStore)
    (session_id doc_key text : String) (metadata : Dict)
    (cfg : Option EmbeddingConfigM)
    (hs : session_id ≠ "") (hd : doc_key ≠ "") (ht : text ≠ "")
    (hc : chunk_text st text ≠ []) (rows : List MemRow)
    (hrows : storeGet s (collKey (resolve_embedding_config st cfg)) = some rows)
    (hex : rows.any (rowMatches [("session_id", session_id), ("doc_key", doc_key),
      ("doc_hash", sha256 text)]) = true) :
    add_document st sha256 sha1 embedTexts s session_id doc_key text metadata cfg =
      (s, 0) := by
  unfold add_document
  rw [if_neg (by push_neg; exact ⟨hs, hd, ht⟩)]
  simp only
  rw [if_neg hc]
  simp only [getOrCreate_of_some s _ rows hrows, hrows, Option.getD_some]
  rw [if_pos hex]

/-- After a successful `add_document` (all guards pass, embedding succeeds),
the resulting store's collection for the resolved config contains a row whose
metadata matches (session, doc_key, content hash). -/
theorem add_document_stores (st : RagSettings) (sha256 sha1 : String → String)
    (embedTexts : List String → List (List Int)) (s0 : MemStore)
    (session_id doc_key text : String) (metadata : Dict)
    (cfg : Option EmbeddingConfigM)
    (hs : session_id ≠ "") (hd : doc_key ≠ "") (ht : text ≠ "")
    (hc : chunk_text st text ≠ [])
    (hemb : ∀ ts, ts ≠ [] → embedTexts ts ≠ [])
    (hm1 : dget metadata "session_id" = none)
    (hm2 : dget metadata "doc_key" = none)
    (hm3 : dget metadata "doc_hash" = none) :
    ∃ rows1,
      storeGet (add_document st sha256 sha1 embedTexts s0 session_id doc_key text
        metadata cfg).1 (collKey (resolve_embedding_config st cfg)) = some rows1 ∧
      rows1.any (rowMatches [("session_id", session_id), ("doc_key", doc_key),
        ("doc_hash", sha256 text)]) = true := by
  unfold add_document
  rw [if_neg (by push_neg; exact ⟨hs, hd, ht⟩)]
  simp only
  rw [if_neg hc]
  by_cases hex : ((storeGet (getOrCreate s0 (collKey (resolve_embedding_config st cfg)))
      (collKey (resolve_embedding_config st cfg))).getD []).any
      (rowMatches [("session_id", session_id), ("doc_key", doc_key),
        ("doc_hash", sha256 text)]) = true
  · rw [if_pos hex]
    obtain ⟨v, hv⟩ := Option.isSome_iff_exists.mp
      (storeGet_getOrCreate_isSome s0 (collKey (resolve_embedding_config st cfg)))
    refine ⟨v, hv, ?_⟩
    rw [hv] at hex
    simpa using hex
  · rw [if_neg hex]
    obtain ⟨es, n, hEB, hes⟩ := embedBatches_success embedTexts
      (batchList (chunk_text st text))
      (fun b hb => mem_batchList_ne_nil _ b hb) hemb
    rw [hEB]
    simp only [Option.elim]
    refine ⟨_, storeGet_storeSet_self _ _ _, ?_⟩
    have hcount : 0 < (chunk_text st text).length := List.length_pos.mpr hc
    have hids : make_chunk_ids sha1 session_id doc_key (chunk_text st text).length ≠ [] := by
      unfold make_chunk_ids
      intro he
      have h0 := List.range_eq_nil.mp (List.map_eq_nil.mp he)
      omega
    have hmetas : (List.range (chunk_text st text).length).map (fun i : Nat =>
        dset (dset (dictUpdate [("session_id", .jstr session_id),
          ("doc_key", .jstr doc_key), ("doc_hash", .jstr (sha256 text))] metadata)
          "chunk_index" (.jnum (Int.ofNat i))) "total_chunks"
          (.jnum (Int.ofNat (chunk_text st text).length))) ≠ [] := by
      intro he
      have h0 := List.range_eq_nil.mp (List.map_eq_nil.mp he)
      omega
    have hnr := buildRows_ne_nil _ _ _ _ hids hc hmetas (hes (batchList_ne_nil _ hc))
    obtain ⟨it, hit, hmem⟩ := exists_mem_upsertRows _ _ hnr
    have hmeta := mem_buildRows_meta _ _ _ _ it hit
    obtain ⟨i, _, hieq⟩ := List.mem_map.mp hmeta
    obtain ⟨f1, f2, f3⟩ := chunk_meta_fields session_id doc_key (sha256 text) metadata
      hm1 hm2 hm3 (Int.ofNat i) (Int.ofNat (chunk_text st text).length)
    refine List.any_eq_true.mpr ⟨it, hmem, ?_⟩
    simp only [rowMatches, List.all_cons, List.all_nil, Bool.and_true,
      Bool.and_eq_true, decide_eq_true_eq]
    rw [← hieq]
    exact ⟨f1, f2, f3⟩

/-- Claim C8: ingest is idempotent — after one `add_document`, a second call
with the same session, doc_key and identical text (hence the same content
hash) against the resulting store is a no-op: the store is returned unchanged
and zero `_embed_texts` calls are made. -/
theorem ingest_idempotent (st : RagSettings) (sha256 sha1 : String → String)
    (embedTexts : List String → List (List Int)) (s0 : MemStore)
    (session_id doc_key text : String) (metadata : Dict)
    (cfg : Option EmbeddingConfigM)
    (hs : session_id ≠ "") (hd : doc_key ≠ "") (ht : text ≠ "")
    (hc : chunk_text st text ≠ [])
    (hemb : ∀ ts, ts ≠ [] → embedTexts ts ≠ [])
    (hm1 : dget metadata "session_id" = none)
    (hm2 : dget metadata "doc_key" = none)
    (hm3 : dget metadata "doc_hash" = none) :
    add_document st sha256 sha1 embedTexts
      (add_document st sha256 sha1 embedTexts s0 session_id doc_key text metadata cfg).1
      session_id doc_key text metadata cfg =
    ((add_document st sha256 sha1 embedTexts s0 session_id doc_key text metadata cfg).1,
      0) := by
  obtain ⟨rows1, h1, h2⟩ := add_document_stores st sha256 sha1 embedTexts s0
    session_id doc_key text metadata cfg hs hd ht hc hemb hm1 hm2 hm3
  exact add_document_of_exists st sha256 sha1 embedTexts _ session_id doc_key text
    metadata cfg hs hd ht hc rows1 h1 h2

/-- Settings used by the retrieval-memory witnesses (the config.py defaults:
chunk size 1200, overlap 200, at most 40 chunks, top-k 4). -/
def exSettings : RagSettings :=
  ⟨"local", "all-MiniLM-L6-v2", none, none, none, none, 1200, 200, 40, 4⟩

/-- A total embedding stub: one vector per text. -/
def exEmbed : List String → List (List Int) :=
  fun ts => ts.map (fun _ => [1])

/-- Witness for C8: ingesting "hello world" twice for the same session and
doc key; the second call returns the unchanged store and makes zero embedding
calls. -/
theorem ingest_idempotent_witness :
    ("sess1" : String) ≠ "" ∧ ("doc1" : String) ≠ "" ∧
    ("hello world" : String) ≠ "" ∧
    chunk_text exSettings "hello world" ≠ [] ∧
    (∀ ts : List String, ts ≠ [] → exEmbed ts ≠ []) ∧
    dget [] "session_id" = none ∧ dget [] "doc_key" = none ∧
    dget [] "doc_hash" = none ∧
    add_document exSettings id id exEmbed
      (add_document exSettings id id exEmbed [] "sess1" "doc1" "hello world" [] none).1
      "sess1" "doc1" "hello world" [] none =
    ((add_document exSettings id id exEmbed [] "sess1" "doc1" "hello world" [] none).1,
      0) :=
  ⟨by decide, by decide, by decide,
   chunk_text_ne_nil exSettings "hello world" (by decide),
   fun ts h => by simpa [exEmbed] using h,
   rfl, rfl, rfl,
   ingest_idempotent exSettings id id exEmbed [] "sess1" "doc1" "hello world" [] none
     (by decide) (by decide) (by decide)
     (chunk_text_ne_nil exSettings "hello world" (by decide))
     (fun ts h => by simpa [exEmbed] using h) rfl rfl rfl⟩

/-! ## C9: session noninterference on reads -/

theorem storeRows_append (a b : MemStore) :
    storeRows (a ++ b) = storeRows a ++ storeRows b := by
  simp [storeRows]

theorem mem_rows_of_storeGet (s : MemStore) (k : String × String) (r : MemRow)
    (h : r ∈ (storeGet s k).getD []) : r ∈ storeRows s := by
  induction s with
  | nil => simp [storeGet] at h
  | cons p s ih =>
    by_cases hp : p.1 = k
    · rw [storeGet, if_pos hp] at h
      simp only [Option.getD_some] at h
      simp only [storeRows, List.map_cons, List.flatten_cons]
      exact List.mem_append_left _ h
    · rw [storeGet, if_neg hp] at h
      simp only [storeRows, List.map_cons, List.flatten_cons]
      exact List.mem_append_right _ (ih h)

theorem mem_storeRows_storeSet (s : MemStore) (k : String × String)
    (v : List MemRow) (r : MemRow) (h : r ∈ storeRows (storeSet s k v)) :
    r ∈ v ∨ r ∈ storeRows s := by
  induction s with
  | nil =>
    simp only [storeSet, storeRows, List.map_cons, List.map_nil,
      List.flatten_cons, List.flatten_nil, List.append_nil] at h
    exact Or.inl h
  | cons p s ih =>
    by_cases hp : p.1 = k
    · rw [storeSet, if_pos hp] at h
      simp only [storeRows, List.map_cons, List.flatten_cons] at h
      rcases List.mem_append.mp h with h1 | h1
      · exact Or.inl h1
      · refine Or.inr ?_
        simp only [storeRows, List.map_cons, List.flatten_cons]
        exact List.mem_append_right _ h1
    · rw [storeSet, if_neg hp] at h
      simp only [storeRows, List.map_cons, List.flatten_cons] at h
      rcases List.mem_append.mp h with h1 | h1
      · refine Or.inr ?_
        simp only [storeRows, List.map_cons, List.flatten_cons]
        exact List.mem_append_left _ h1
      · rcases ih h1 with h2 | h2
        · exact Or.inl h2
        · refine Or.inr ?_
          simp only [storeRows, List.map_cons, List.flatten_cons]
          exact List.mem_append_right _ h2

theorem mem_storeRows_getOrCreate (s : MemStore) (k : String × String) (r : MemRow)
    (h : r ∈ storeRows (getOrCreate s k)) : r ∈ storeRows s := by
  unfold getOrCreate at h
  cases hg : storeGet s k with
  | some v =>
    rw [hg] at h
    exact h
  | none =>
    rw [hg] at h
    rw [storeRows_append] at h
    rcases List.mem_append.mp h with h1 | h1
    · exact h1
    · simp [storeRows] at h1

theorem mem_upsertOne_cases (rows : List MemRow) (it r : MemRow)
    (h : r ∈ upsertOne rows it) : r ∈ rows ∨ r = it := by
  unfold upsertOne at h
  split at h
  · obtain ⟨x, hx, hxr⟩ := List.mem_map.mp h
    by_cases hid : x.id = it.id
    · right
      rw [← hxr]
      simp [hid]
    · left
      rw [← hxr]
      simpa [hid] using hx
  · rcases List.mem_append.mp h with h1 | h1
    · exact Or.inl h1
    · exact Or.inr (List.mem_singleton.mp h1)

theorem mem_upsertRows_cases (rows items : List MemRow) (r : MemRow)
    (h : r ∈ upsertRows rows items) : r ∈ rows ∨ r ∈ items := by
  induction items generalizing rows with
  | nil => exact Or.inl h
  | cons it rest ih =>
    have h' : r ∈ upsertRows (upsertOne rows it) rest := by
      unfold upsertRows at h ⊢
      simpa [List.foldl_cons] using h
    rcases ih (upsertOne rows it) h' with h1 | h1
    · rcases mem_upsertOne_cases rows it r h1 with h2 | h2
      · exact Or.inl h2
      · exact Or.inr (h2 ▸ List.mem_cons_self _ _)
    · exact Or.inr (List.mem_cons_of_mem _ h1)

/-- Provenance of one `add_document`: every row of the resulting store either
was already present or carries the ingesting call's session id in its
metadata. -/
theorem add_document_row_provenance (st : RagSettings) (sha256 sha1 : String → String)
    (embedTexts : List String → List (List Int)) (store : MemStore)
    (session_id doc_key text : String) (metadata : Dict)
    (cfg : Option EmbeddingConfigM)
    (hm1 : dget metadata "session_id" = none)
    (hm2 : dget metadata "doc_key" = none)
    (hm3 : dget metadata "doc_hash" = none) :
    ∀ r ∈ storeRows (add_document st sha256 sha1 embedTexts store session_id doc_key
        text metadata cfg).1,
      r ∈ storeRows store ∨ dget r.meta "session_id" = some (.jstr session_id) := by
  intro r hr
  unfold add_document at hr
  by_cases g1 : session_id = "" ∨ doc_key = "" ∨ text = ""
  · rw [if_pos g1] at hr
    exact Or.inl hr
  · rw [if_neg g1] at hr
    by_cases g2 : chunk_text st text = []
    · rw [if_pos g2] at hr
      exact Or.inl hr
    · rw [if_neg g2] at hr
      by_cases g3 : (((storeGet (getOrCreate store (collKey (resolve_embedding_config st cfg)))
          (collKey (resolve_embedding_config st cfg))).getD []).any
          (rowMatches [("session_id", session_id), ("doc_key", doc_key),
            ("doc_hash", sha256 text)])) = true
      · rw [if_pos g3] at hr
        exact Or.inl (mem_storeRows_getOrCreate _ _ r hr)
      · rw [if_neg g3] at hr
        cases heb : (embedBatches embedTexts (batchList (chunk_text st text))).1 with
        | none =>
          simp only [heb, Option.elim_none] at hr
          exact Or.inl (mem_storeRows_getOrCreate _ _ r hr)
        | some es =>
          simp only [heb, Option.elim_some] at hr
          rcases mem_storeRows_storeSet _ _ _ r hr with hmem | hmem
          · rcases mem_upsertRows_cases _ _ r hmem with h1 | h1
            · have h2 := List.mem_filter.mp h1
              exact Or.inl (mem_storeRows_getOrCreate _ _ r
                (mem_rows_of_storeGet _ _ r h2.1))
            · have hmeta := mem_buildRows_meta _ _ _ _ r h1
              obtain ⟨i, _, hieq⟩ := List.mem_map.mp hmeta
              obtain ⟨f1, _, _⟩ := chunk_meta_fields session_id doc_key (sha256 text)
                metadata hm1 hm2 hm3 (Int.ofNat i) (Int.ofNat (chunk_text st text).length)
              right
              rw [← hieq]
              exact f1
          · exact Or.inl (mem_storeRows_getOrCreate _ _ r hmem)

/-- Provenance across a history of ingests. -/
theorem runIngest_row_provenance (st : RagSettings) (sha256 sha1 : String → String)
    (embedTexts : List String → List (List Int)) (ops : List IngestOp)
    (s : MemStore)
    (hwf : ∀ op ∈ ops, dget op.metadata "session_id" = none ∧
      dget op.metadata "doc_key" = none ∧ dget op.metadata "doc_hash" = none) :
    ∀ r ∈ storeRows (runIngest st sha256 sha1 embedTexts s ops),
      r ∈ storeRows s ∨ ∃ op ∈ ops, dget r.meta "session_id" = some (.jstr op.session) := by
  induction ops generalizing s with
  | nil =>
    intro r hr
    exact Or.inl hr
  | cons op rest ih =>
    intro r hr
    have hr' : r ∈ storeRows (runIngest st sha256 sha1 embedTexts
        (add_document st sha256 sha1 embedTexts s op.session op.doc_key op.text
          op.metadata op.cfg).1 rest) := by
      unfold runIngest at hr ⊢
      simpa [List.foldl_cons] using hr
    obtain ⟨w1, w2, w3⟩ := hwf op (List.mem_cons_self _ _)
    rcases ih _ (fun o ho => hwf o (List.mem_cons_of_mem _ ho)) r hr' with h1 | h1
    · rcases add_document_row_provenance st sha256 sha1 embedTexts s op.session
        op.doc_key op.text op.metadata op.cfg w1 w2 w3 r h1 with h2 | h2
      · exact Or.inl h2
      · exact Or.inr ⟨op, List.mem_cons_self _ _, h2⟩
    · obtain ⟨o, ho, hsess⟩ := h1
      exact Or.inr ⟨o, List.mem_cons_of_mem _ ho, hsess⟩

/-- The read-side filter: every match returned by `query` for a session
carries that session id in its metadata. -/
theorem pdf_query_meta (st : RagSettings) (embedTexts : List String → List (List Int))
    (dist : List Int → List Int → Int) (store : MemStore)
    (A q : String) (topk : Option Nat) (cfg : Option EmbeddingConfigM)
    (m : MemMatch) (h : m ∈ pdf_query st embedTexts dist store A q topk cfg) :
    dget m.metadata "session_id" = some (.jstr A) := by
  unfold pdf_query at h
  by_cases h0 : A = "" ∨ q = ""
  · rw [if_pos h0] at h
    simp at h
  · rw [if_neg h0] at h
    by_cases h1 : embedTexts [q] = []
    · rw [if_pos h1] at h
      simp at h
    · rw [if_neg h1] at h
      obtain ⟨r, hr, hm⟩ := List.mem_map.mp h
      unfold chromaQuery at hr
      have hr2 := List.take_subset _ _ hr
      have hr3 := (List.mergeSort_perm _ _).mem_iff.mp hr2
      have hr4 := List.mem_filter.mp hr3
      have hsess := of_decide_eq_true hr4.2
      rw [← hm]
      exact hsess

/-- Claim C9: session noninterference on reads — over any history of ingests
(whose caller metadata does not spoof the reserved keys, as in the one caller
in the source), every match `query` returns for session `A` is tagged with
session `A` and in particular is never one of session `B`'s chunks, since
every stored row carries the session id of the ingest that created it. -/
theorem query_session_isolation (st : RagSettings) (sha256 sha1 : String → String)
    (embedTexts : List String → List (List Int))
    (dist : List Int → List Int → Int) (ops : List IngestOp)
    (hwf : ∀ op ∈ ops, dget op.metadata "session_id" = none ∧
      dget op.metadata "doc_key" = none ∧ dget op.metadata "doc_hash" = none)
    (A B q : String) (hAB : A ≠ B) (topk : Option Nat)
    (cfg : Option EmbeddingConfigM) :
    (∀ m ∈ pdf_query st embedTexts dist
        (runIngest st sha256 sha1 embedTexts [] ops) A q topk cfg,
      dget m.metadata "session_id" = some (.jstr A) ∧
      dget m.metadata "session_id" ≠ some (.jstr B)) ∧
    (∀ r ∈ storeRows (runIngest st sha256 sha1 embedTexts [] ops),
      ∃ op ∈ ops, dget r.meta "session_id" = some (.jstr op.session)) := by
  constructor
  · intro m hm
    have h1 := pdf_query_meta st embedTexts dist _ A q topk cfg m hm
    refine ⟨h1, ?_⟩
    rw [h1]
    intro h2
    apply hAB
    have h3 := Option.some.inj h2
    exact JVal.jstr.inj h3
  · intro r hr
    rcases runIngest_row_provenance st sha256 sha1 embedTexts ops [] hwf r hr with h | h
    · simp [storeRows] at h
    · exact h

/-- Witness for C9: one ingest for session `"other"`; a query for `"sess1"`
returns only `"sess1"`-tagged matches (here: none), and every stored row is
tagged by its ingesting operation. -/
theorem query_session_isolation_witness :
    (∀ op ∈ [(⟨"other", "doc1", "hello world", [], none⟩ : IngestOp)],
      dget op.metadata "session_id" = none ∧
      dget op.metadata "doc_key" = none ∧ dget op.metadata "doc_hash" = none) ∧
    ("sess1" : String) ≠ "other" ∧
    ((∀ m ∈ pdf_query exSettings exEmbed (fun _ _ => 0)
        (runIngest exSettings id id exEmbed []
          [(⟨"other", "doc1", "hello world", [], none⟩ : IngestOp)]) "sess1" "q" none none,
      dget m.metadata "session_id" = some (.jstr "sess1") ∧
      dget m.metadata "session_id" ≠ some (.jstr "other")) ∧
    (∀ r ∈ storeRows (runIngest exSettings id id exEmbed []
        [(⟨"other", "doc1", "hello world", [], none⟩ : IngestOp)]),
      ∃ op ∈ [(⟨"other", "doc1", "hello world", [], none⟩ : IngestOp)],
        dget r.meta "session_id" = some (.jstr op.session))) :=
  ⟨by intro op hop; cases List.mem_singleton.mp hop; exact ⟨rfl, rfl, rfl⟩,
   by decide,
   query_session_isolation exSettings id id exEmbed (fun _ _ => 0)
     [(⟨"other", "doc1", "hello world", [], none⟩ : IngestOp)]
     (by intro op hop; cases List.mem_singleton.mp hop; exact ⟨rfl, rfl, rfl⟩)
     "sess1" "other" "q" (by decide) none none⟩

end PolicyRadar
